import Mathlib

/-! # ADM_clickableLabel

A shallow embedding of `ADM_clickableLabel`
(`avidemux/qt4/ADM_userInterfaces/ADM_gui/ADM_clickableLabel.h`): a label that
reports the clamped horizontal position of left-button clicks and drags through
the signal `clicked(position, totalWidth)` and paints a vertical indicator line
at a ratio of its width.

The widget's two fields are an explicit state record; every handler is a pure
function from the widget geometry, the event and the state to the next state
and the list of effects it performs, in program order.
-/

namespace Qt

/-- The value of the enumerator `Qt::LeftButton` (0x00000001 in the toolkit's headers). -/
def LeftButton : Nat := 1

/-- The value of the enumerator `Qt::RightButton` (0x00000002 in the toolkit's headers). -/
def RightButton : Nat := 2

end Qt

/-- The payload of a `QMouseEvent` the widget reads: `button()` is the button
that caused the event, `buttons()` the mask of buttons held when it was
generated, `x` the `int` that `emitPosition` reads as the horizontal offset of
the pointer inside the widget (`event->x()`, or `event->position().x()`
converted to `int`, depending on the toolkit version). -/
structure QMouseEvent where
  button : Nat
  buttons : Nat
  x : Int
deriving DecidableEq, Repr

/-- Rounding of a rational to the nearest integer, a tie going to the even
neighbour. -/
def roundHalfEven (x : ℚ) : Int :=
  if x - (⌊x⌋ : ℚ) < 1 / 2 then ⌊x⌋
  else if 1 / 2 < x - (⌊x⌋ : ℚ) then ⌊x⌋ + 1
  else if ⌊x⌋ % 2 = 0 then ⌊x⌋ else ⌊x⌋ + 1

/-- A C++ `double` in IEEE style. A finite value is kept as the rational it
denotes, and the result of an arithmetic operation is rounded to the nearest
double by `ADM_double.roundNearest`; the three non-finite values are separate
constructors. -/
inductive ADM_double where
  | finite (q : ℚ)
  | posInf
  | negInf
  | nan
deriving DecidableEq

namespace ADM_double

/-- The comparison `a <= b` on doubles: false whenever an operand is NaN. -/
def le : ADM_double → ADM_double → Bool
  | nan, _ => false
  | _, nan => false
  | negInf, _ => true
  | _, posInf => true
  | finite a, finite b => decide (a ≤ b)
  | finite _, negInf => false
  | posInf, finite _ => false
  | posInf, negInf => false

/-- The comparison `a >= b` on doubles, which is `b <= a`. -/
def ge (a b : ADM_double) : Bool := le b a

/-- The exponent `e` of the unit in the last place of a double of magnitude
`|q|`, the one with `2 ^ 52 ≤ |q| / 2 ^ e < 2 ^ 53`. -/
def ulpExponent (q : ℚ) : Int := Int.log 2 |q| - 52

/-- Rounding of an exact value to the nearest double, a tie going to the even
significand, which is the result of the IEEE operation whose exact value is
`q`. The significand has 53 bits. The exponent range is not bounded: the one
product of the program is of a ratio in `[0, 1]` and an `int`, which neither
overflows nor falls between two subnormal doubles. -/
def roundNearest (q : ℚ) : ℚ :=
  if q = 0 then 0
  else (roundHalfEven (q / (2 : ℚ) ^ ulpExponent q) : ℚ) * (2 : ℚ) ^ ulpExponent q

/-- The rational `q` is the value of a double: rounding leaves it as it is. -/
def IsDouble (q : ℚ) : Prop := roundNearest q = q

/-- The product `d * w` of a double and an `int` converted to double (the
conversion of an `int` is exact): the exact product rounded to the nearest
double. -/
def mulInt : ADM_double → Int → ADM_double
  | finite q, w => finite (roundNearest (q * (w : ℚ)))
  | nan, _ => nan
  | posInf, w => if w = 0 then nan else if 0 < w then posInf else negInf
  | negInf, w => if w = 0 then nan else if 0 < w then negInf else posInf

/-- The conversion `(int)d`: a finite value is truncated toward zero; the
conversion of a non-finite value is undefined and yields `none`. -/
def toInt : ADM_double → Option Int
  | finite q => some (Int.tdiv q.num (q.den : Int))
  | _ => none

end ADM_double

/-- What a handler does to the outside world, one constructor per call that
leaves the widget. -/
inductive Effect where
  /-- The signal `clicked(position, totalWidth)`. -/
  | clicked (position totalWidth : Int)
  /-- The call `update()` that schedules a repaint. -/
  | update
  /-- The call `QLabel::mousePressEvent(event)`. -/
  | baseMousePressEvent
  /-- The call `QLabel::mouseMoveEvent(event)`. -/
  | baseMouseMoveEvent
  /-- The call `QLabel::mouseReleaseEvent(event)`. -/
  | baseMouseReleaseEvent
  /-- The call `QLabel::paintEvent(event)`. -/
  | basePaintEvent
  /-- The call `painter.setPen(QPen(QColor(r, g, b), penWidth))`. -/
  | setPen (r g b penWidth : Nat)
  /-- The call `painter.drawLine(x1, y1, x2, y2)`. -/
  | drawLine (x1 y1 x2 y2 : Int)
  /-- The conversion to `int` of a value that `int` cannot represent. -/
  | undefinedConversion
deriving DecidableEq

/-- The fields of the widget. -/
structure ADM_clickableLabel where
  m_positionRatio : ADM_double
  m_dragging : Bool
deriving DecidableEq

namespace ADM_clickableLabel

/-- The constructor's member initialisers: ratio `-1.0`, not dragging. -/
def new : ADM_clickableLabel :=
  { m_positionRatio := ADM_double.finite (-1), m_dragging := false }

/-- The method `setPositionRatio(ratio)`. -/
def setPositionRatio (ratio : ADM_double) (s : ADM_clickableLabel) :
    ADM_clickableLabel × List Effect :=
  ({ s with m_positionRatio := ratio }, [Effect.update])

/-- The method `emitPosition(event)` on a widget whose `width()` is `width`. -/
def emitPosition (width : Int) (event : QMouseEvent) : List Effect :=
  let x := event.x
  let x := if x < 0 then 0 else x
  let x := if x > width then width else x
  [Effect.clicked x width]

/-- The handler `mousePressEvent(event)`. -/
def mousePressEvent (width : Int) (event : QMouseEvent) (s : ADM_clickableLabel) :
    ADM_clickableLabel × List Effect :=
  if event.button = Qt.LeftButton then
    ({ s with m_dragging := true },
      emitPosition width event ++ [Effect.baseMousePressEvent])
  else
    (s, [Effect.baseMousePressEvent])

/-- The handler `mouseMoveEvent(event)`. -/
def mouseMoveEvent (width : Int) (event : QMouseEvent) (s : ADM_clickableLabel) :
    ADM_clickableLabel × List Effect :=
  if s.m_dragging && (event.buttons &&& Qt.LeftButton != 0) then
    (s, emitPosition width event ++ [Effect.baseMouseMoveEvent])
  else
    (s, [Effect.baseMouseMoveEvent])

/-- The handler `mouseReleaseEvent(event)`. -/
def mouseReleaseEvent (event : QMouseEvent) (s : ADM_clickableLabel) :
    ADM_clickableLabel × List Effect :=
  if event.button = Qt.LeftButton then
    ({ s with m_dragging := false }, [Effect.baseMouseReleaseEvent])
  else
    (s, [Effect.baseMouseReleaseEvent])

/-- The handler `paintEvent(event)` on a widget of the given `width()` and
`height()`. -/
def paintEvent (width height : Int) (s : ADM_clickableLabel) :
    ADM_clickableLabel × List Effect :=
  if ADM_double.ge s.m_positionRatio (ADM_double.finite 0)
      && ADM_double.le s.m_positionRatio (ADM_double.finite 1) then
    match ADM_double.toInt (ADM_double.mulInt s.m_positionRatio width) with
    | some xPos =>
      (s, [Effect.basePaintEvent, Effect.setPen 255 255 0 2,
           Effect.drawLine xPos 0 xPos height])
    | none => (s, [Effect.basePaintEvent, Effect.undefinedConversion])
  else
    (s, [Effect.basePaintEvent])

end ADM_clickableLabel

/-- The `clicked` signals among a list of effects, as pairs
`(position, totalWidth)` in emission order. -/
def reports : List Effect → List (Int × Int)
  | [] => []
  | Effect.clicked p w :: rest => (p, w) :: reports rest
  | _ :: rest => reports rest

/-- The indicator lines among a list of effects, as `(x1, y1, x2, y2)` in
drawing order. -/
def indicatorLines : List Effect → List (Int × Int × Int × Int)
  | [] => []
  | Effect.drawLine x1 y1 x2 y2 :: rest => (x1, y1, x2, y2) :: indicatorLines rest
  | _ :: rest => indicatorLines rest

/-- A pointer event as the toolkit delivers it: which of the three handlers is
called, and the event object it is called with. -/
inductive PointerEvent where
  | press (event : QMouseEvent)
  | move (event : QMouseEvent)
  | release (event : QMouseEvent)
deriving DecidableEq

namespace PointerEvent

/-- The event object carried by a pointer event. -/
def event : PointerEvent → QMouseEvent
  | press e => e
  | move e => e
  | release e => e

/-- A press event. -/
def isPress : PointerEvent → Bool
  | press _ => true
  | _ => false

/-- A move event. -/
def isMove : PointerEvent → Bool
  | move _ => true
  | _ => false

/-- A release event. -/
def isRelease : PointerEvent → Bool
  | release _ => true
  | _ => false

/-- A press event caused by the left button. -/
def isLeftPress : PointerEvent → Bool
  | press e => decide (e.button = Qt.LeftButton)
  | _ => false

/-- A release event caused by the left button. -/
def isLeftRelease : PointerEvent → Bool
  | release e => decide (e.button = Qt.LeftButton)
  | _ => false

/-- A move event whose held-buttons mask contains the left button. -/
def isLeftHeldMove : PointerEvent → Bool
  | move e => e.buttons &&& Qt.LeftButton != 0
  | _ => false

end PointerEvent

/-- The toolkit's dispatch of one pointer event to the widget's handler, on a
widget whose `width()` is `width`. -/
def dispatch (width : Int) (ev : PointerEvent) (s : ADM_clickableLabel) :
    ADM_clickableLabel × List Effect :=
  match ev with
  | PointerEvent.press e => ADM_clickableLabel.mousePressEvent width e s
  | PointerEvent.move e => ADM_clickableLabel.mouseMoveEvent width e s
  | PointerEvent.release e => ADM_clickableLabel.mouseReleaseEvent e s

/-- Delivery of a sequence of pointer events in order: the final state and,
for each event, the effects its handler performed. -/
def deliver (width : Int) : List PointerEvent → ADM_clickableLabel →
    ADM_clickableLabel × List (List Effect)
  | [], s => (s, [])
  | ev :: rest, s =>
    let r := dispatch width ev s
    let t := deliver width rest r.1
    (t.1, r.2 :: t.2)

/-- The sequence contains a left-button press that no left-button release
follows. -/
def PressedSince (evs : List PointerEvent) : Prop :=
  ∃ a p b, evs = a ++ p :: b ∧ p.isLeftPress = true ∧ ∀ r ∈ b, r.isLeftRelease = false

/-- A call the widget receives from outside: a pointer event delivered by the
toolkit, the setter called by the owner, or a paint request on a widget whose
`height()` is `height`. -/
inductive Call where
  | pointer (ev : PointerEvent)
  | setRatio (ratio : ADM_double)
  | paint (height : Int)
deriving DecidableEq

/-- The execution of one call on a widget whose `width()` is `width`. -/
def perform (width : Int) (c : Call) (s : ADM_clickableLabel) :
    ADM_clickableLabel × List Effect :=
  match c with
  | Call.pointer ev => dispatch width ev s
  | Call.setRatio ratio => ADM_clickableLabel.setPositionRatio ratio s
  | Call.paint height => ADM_clickableLabel.paintEvent width height s

/-- The execution of a sequence of calls in order: the final state and, for
each call, the effects it performed. -/
def performAll (width : Int) : List Call → ADM_clickableLabel →
    ADM_clickableLabel × List (List Effect)
  | [], s => (s, [])
  | c :: rest, s =>
    let r := perform width c s
    let t := performAll width rest r.1
    (t.1, r.2 :: t.2)

/-- The argument of the last `setPositionRatio` call of the sequence, or `init`
when the sequence has none. -/
def lastRatio (init : ADM_double) : List Call → ADM_double
  | [] => init
  | Call.setRatio ratio :: rest => lastRatio ratio rest
  | _ :: rest => lastRatio init rest

/-- The least value of the 32-bit `int`. -/
def INT_MIN : Int := -2147483648

/-- The greatest value of the 32-bit `int`. -/
def INT_MAX : Int := 2147483647

/-- The implicit conversion of a double to an `int` variable, as in the
assignment `x = event->position().x()`: the value truncated toward zero when
`int` can represent it, undefined otherwise. -/
def ADM_double.toRepresentableInt (d : ADM_double) : Option Int :=
  match ADM_double.toInt d with
  | some t => if INT_MIN ≤ t ∧ t ≤ INT_MAX then some t else none
  | none => none

/-- The method `emitPosition(event)` built for toolkit version 6, where the
pointer offset is read as `x = event->position().x()`: the `qreal` offset `px`
is converted to `int` and the body of `emitPosition` runs on the result. -/
def ADM_clickableLabel.emitPositionQt6 (width : Int) (button buttons : Nat)
    (px : ADM_double) : List Effect :=
  match ADM_double.toRepresentableInt px with
  | some x => ADM_clickableLabel.emitPosition width ⟨button, buttons, x⟩
  | none => [Effect.undefinedConversion]

/-- Truncation of a rational toward zero. -/
def truncToZero (q : ℚ) : Int := Int.tdiv q.num (q.den : Int)

/-- Clamping of the fractional position `p` into `[0, w]` first, truncation
toward zero second. -/
def clampThenTruncate (p : ℚ) (w : Int) : Int := truncToZero (max 0 (min p (w : ℚ)))

open ADM_clickableLabel

/-! ## Helper lemmas -/

/-! ### Rounding to the nearest double -/

theorem floor_le_roundHalfEven (x : ℚ) : ⌊x⌋ ≤ roundHalfEven x := by
  unfold roundHalfEven
  split_ifs <;> omega

theorem roundHalfEven_le_floor_add_one (x : ℚ) : roundHalfEven x ≤ ⌊x⌋ + 1 := by
  unfold roundHalfEven
  split_ifs <;> omega

theorem roundHalfEven_intCast (n : Int) : roundHalfEven (n : ℚ) = n := by
  unfold roundHalfEven
  simp

theorem roundHalfEven_mono {x y : ℚ} (h : x ≤ y) : roundHalfEven x ≤ roundHalfEven y := by
  rcases (Int.floor_mono h).lt_or_eq with hlt | heq
  · calc roundHalfEven x ≤ ⌊x⌋ + 1 := roundHalfEven_le_floor_add_one x
      _ ≤ ⌊y⌋ := hlt
      _ ≤ roundHalfEven y := floor_le_roundHalfEven y
  · have hd : x - (⌊x⌋ : ℚ) ≤ y - (⌊y⌋ : ℚ) := by rw [heq]; linarith
    unfold roundHalfEven
    rw [heq]
    split_ifs <;> first | omega | (exfalso; linarith)

theorem le_roundHalfEven {n : Int} {x : ℚ} (h : (n : ℚ) ≤ x) : n ≤ roundHalfEven x := by
  have := roundHalfEven_mono h
  rwa [roundHalfEven_intCast] at this

theorem roundHalfEven_le {n : Int} {x : ℚ} (h : x ≤ (n : ℚ)) : roundHalfEven x ≤ n := by
  have := roundHalfEven_mono h
  rwa [roundHalfEven_intCast] at this

/-- Below the midpoint under an integer the rounding stays under that integer. -/
theorem roundHalfEven_lt {n : Int} {x : ℚ} (h : x < (n : ℚ) - 1 / 2) : roundHalfEven x < n := by
  have hfl : ⌊x⌋ < n := by
    rw [Int.floor_lt]; linarith
  rcases (Int.add_one_le_iff.mpr hfl).lt_or_eq with hlt | heq
  · have := roundHalfEven_le_floor_add_one x
    omega
  · have hd : x - (⌊x⌋ : ℚ) < 1 / 2 := by
      have : ((⌊x⌋ + 1 : Int) : ℚ) = (n : ℚ) := by rw [heq]
      push_cast at this
      linarith
    unfold roundHalfEven
    rw [if_pos hd]
    exact hfl

theorem two_zpow_pos (e : Int) : (0 : ℚ) < (2 : ℚ) ^ e := zpow_pos (by norm_num) e

theorem roundNearest_of_ne_zero {q : ℚ} (hq : q ≠ 0) :
    ADM_double.roundNearest q = (roundHalfEven (q / (2 : ℚ) ^ ADM_double.ulpExponent q) : ℚ) * (2 : ℚ) ^ ADM_double.ulpExponent q := by
  unfold ADM_double.roundNearest
  rw [if_neg hq]

/-- The value scaled by its unit in the last place lies between `2 ^ 52` and
`2 ^ 53`. -/
theorem scaled_bounds {y : ℚ} (hy : 0 < y) :
    (2 : ℚ) ^ (52 : Int) ≤ y / (2 : ℚ) ^ ADM_double.ulpExponent y ∧
      y / (2 : ℚ) ^ ADM_double.ulpExponent y < (2 : ℚ) ^ (53 : Int) := by
  have h1 : ((2 : ℕ) : ℚ) ^ Int.log 2 y ≤ y := Int.zpow_log_le_self (by norm_num) hy
  have h2 : y < ((2 : ℕ) : ℚ) ^ (Int.log 2 y + 1) := Int.lt_zpow_succ_log_self (by norm_num) y
  simp only [Nat.cast_ofNat] at h1 h2
  have he : ADM_double.ulpExponent y = Int.log 2 y - 52 := by
    unfold ADM_double.ulpExponent
    rw [abs_of_pos hy]
  have hpos := two_zpow_pos (ADM_double.ulpExponent y)
  constructor
  · rw [le_div_iff₀ hpos, ← zpow_add₀ (by norm_num : (2 : ℚ) ≠ 0), he]
    have : (52 : Int) + (Int.log 2 y - 52) = Int.log 2 y := by ring
    rw [this]
    exact h1
  · rw [div_lt_iff₀ hpos, ← zpow_add₀ (by norm_num : (2 : ℚ) ≠ 0), he]
    have : (53 : Int) + (Int.log 2 y - 52) = Int.log 2 y + 1 := by ring
    rw [this]
    exact h2

theorem ulpExponent_le_of_lt {y : ℚ} (hy : 0 < y) {k : Int} (h : y < (2 : ℚ) ^ k) :
    ADM_double.ulpExponent y ≤ k - 53 := by
  have hlog : Int.log 2 y < k := by
    rw [← Int.lt_zpow_iff_log_lt (by norm_num) hy]
    simpa using h
  unfold ADM_double.ulpExponent
  rw [abs_of_pos hy]
  omega

theorem le_ulpExponent_of_le {y : ℚ} (hy : 0 < y) {k : Int} (h : (2 : ℚ) ^ k ≤ y) :
    k - 52 ≤ ADM_double.ulpExponent y := by
  have hlog : k ≤ Int.log 2 y := by
    rw [← Int.zpow_le_iff_le_log (by norm_num) hy]
    simpa using h
  unfold ADM_double.ulpExponent
  rw [abs_of_pos hy]
  omega

theorem ulpExponent_mono {y z : ℚ} (hy : 0 < y) (h : y ≤ z) : ADM_double.ulpExponent y ≤ ADM_double.ulpExponent z := by
  unfold ADM_double.ulpExponent
  rw [abs_of_pos hy, abs_of_pos (hy.trans_le h)]
  have := Int.log_mono_right (b := 2) hy h
  omega

theorem roundNearest_zero : ADM_double.roundNearest 0 = 0 := by
  simp [ADM_double.roundNearest]

theorem roundNearest_nonneg {y : ℚ} (hy : 0 ≤ y) : 0 ≤ ADM_double.roundNearest y := by
  rcases hy.eq_or_lt with rfl | hpos
  · rw [roundNearest_zero]
  · rw [roundNearest_of_ne_zero hpos.ne']
    have hs : (0 : ℚ) ≤ y / (2 : ℚ) ^ ADM_double.ulpExponent y :=
      div_nonneg hpos.le (two_zpow_pos _).le
    have : (0 : Int) ≤ roundHalfEven (y / (2 : ℚ) ^ ADM_double.ulpExponent y) :=
      le_roundHalfEven (by simpa using hs)
    exact mul_nonneg (by exact_mod_cast this) (two_zpow_pos _).le

/-- The significand of a rounded positive value lies between `2 ^ 52` and
`2 ^ 53`. -/
theorem significand_bounds {y : ℚ} (hy : 0 < y) :
    (2 : ℚ) ^ (52 : Int) ≤ (roundHalfEven (y / (2 : ℚ) ^ ADM_double.ulpExponent y) : ℚ) ∧
      (roundHalfEven (y / (2 : ℚ) ^ ADM_double.ulpExponent y) : ℚ) ≤ (2 : ℚ) ^ (53 : Int) := by
  obtain ⟨h1, h2⟩ := scaled_bounds hy
  have c52 : (((2 : Int) ^ 52 : Int) : ℚ) = (2 : ℚ) ^ (52 : Int) := by norm_num
  have c53 : (((2 : Int) ^ 53 : Int) : ℚ) = (2 : ℚ) ^ (53 : Int) := by norm_num
  constructor
  · have h : (2 : Int) ^ 52 ≤ roundHalfEven (y / (2 : ℚ) ^ ADM_double.ulpExponent y) :=
      le_roundHalfEven (by rw [c52]; exact h1)
    rw [← c52]
    exact_mod_cast h
  · have h : roundHalfEven (y / (2 : ℚ) ^ ADM_double.ulpExponent y) ≤ (2 : Int) ^ 53 :=
      roundHalfEven_le (by rw [c53]; exact h2.le)
    rw [← c53]
    exact_mod_cast h

/-- Rounding is monotone on the non-negative values. -/
theorem roundNearest_mono {y z : ℚ} (hy : 0 ≤ y) (h : y ≤ z) :
    ADM_double.roundNearest y ≤ ADM_double.roundNearest z := by
  rcases hy.eq_or_lt with rfl | hpos
  · rw [roundNearest_zero]; exact roundNearest_nonneg h
  · have hz : 0 < z := hpos.trans_le h
    rw [roundNearest_of_ne_zero hpos.ne', roundNearest_of_ne_zero hz.ne']
    rcases (ulpExponent_mono hpos h).lt_or_eq with hlt | heq
    · have hm1q := (significand_bounds hpos).2
      have hm2q := (significand_bounds hz).1
      calc (roundHalfEven (y / (2 : ℚ) ^ ADM_double.ulpExponent y) : ℚ) * (2 : ℚ) ^ ADM_double.ulpExponent y
          ≤ (2 : ℚ) ^ (53 : Int) * (2 : ℚ) ^ ADM_double.ulpExponent y :=
            mul_le_mul_of_nonneg_right hm1q (two_zpow_pos _).le
        _ = (2 : ℚ) ^ (53 + ADM_double.ulpExponent y) := (zpow_add₀ (by norm_num) _ _).symm
        _ ≤ (2 : ℚ) ^ (52 + ADM_double.ulpExponent z) :=
            zpow_le_zpow_right₀ (by norm_num) (by omega)
        _ = (2 : ℚ) ^ (52 : Int) * (2 : ℚ) ^ ADM_double.ulpExponent z := zpow_add₀ (by norm_num) _ _
        _ ≤ (roundHalfEven (z / (2 : ℚ) ^ ADM_double.ulpExponent z) : ℚ) * (2 : ℚ) ^ ADM_double.ulpExponent z :=
            mul_le_mul_of_nonneg_right hm2q (two_zpow_pos _).le
    · rw [heq]
      have hpos2 := two_zpow_pos (ADM_double.ulpExponent z)
      have hs : y / (2 : ℚ) ^ ADM_double.ulpExponent z ≤ z / (2 : ℚ) ^ ADM_double.ulpExponent z :=
        div_le_div_of_nonneg_right h hpos2.le
      have := roundHalfEven_mono hs
      exact mul_le_mul_of_nonneg_right (by exact_mod_cast this) hpos2.le

theorem exists_nat_neg_of_nonpos {e : Int} (he : e ≤ 0) : ∃ k : ℕ, e = -(k : Int) :=
  ⟨(-e).toNat, by omega⟩

theorem two_zpow_neg_natCast (k : ℕ) : (2 : ℚ) ^ (-(k : Int)) = 1 / (2 : ℚ) ^ k := by
  rw [zpow_neg, zpow_natCast, one_div]

/-- An integer below `2 ^ 53` is a double: rounding returns it. -/
theorem roundNearest_intCast (n : Int) (h0 : 0 ≤ n) (h : (n : ℚ) < (2 : ℚ) ^ (53 : Int)) :
    ADM_double.roundNearest (n : ℚ) = (n : ℚ) := by
  rcases h0.eq_or_lt with rfl | hpos
  · simp [roundNearest_zero]
  · have hq : (0 : ℚ) < (n : ℚ) := by exact_mod_cast hpos
    have he : ADM_double.ulpExponent (n : ℚ) ≤ 0 := by
      have := ulpExponent_le_of_lt hq h
      omega
    obtain ⟨k, hk⟩ := exists_nat_neg_of_nonpos he
    rw [roundNearest_of_ne_zero hq.ne', hk, two_zpow_neg_natCast]
    have hpow : (0 : ℚ) < (2 : ℚ) ^ k := pow_pos (by norm_num) k
    have hs : (n : ℚ) / (1 / (2 : ℚ) ^ k) = ((n * 2 ^ k : Int) : ℚ) := by
      push_cast
      field_simp
    rw [hs, roundHalfEven_intCast]
    push_cast
    field_simp

/-- A value at or above an integer double rounds to at least that integer. -/
theorem le_roundNearest_of_intCast_le (n : Int) (h0 : 0 ≤ n) (h : (n : ℚ) < (2 : ℚ) ^ (53 : Int))
    {y : ℚ} (hy : (n : ℚ) ≤ y) : (n : ℚ) ≤ ADM_double.roundNearest y := by
  have := roundNearest_mono (by exact_mod_cast h0) hy
  rwa [roundNearest_intCast n h0 h] at this

/-- A non-negative value at or below an integer double rounds to at most that
integer. -/
theorem roundNearest_le_of_le_intCast (n : Int) (h : (n : ℚ) < (2 : ℚ) ^ (53 : Int))
    {y : ℚ} (hy0 : 0 ≤ y) (hy : y ≤ (n : ℚ)) : ADM_double.roundNearest y ≤ (n : ℚ) := by
  have h0 : 0 ≤ n := by exact_mod_cast hy0.trans hy
  have := roundNearest_mono hy0 hy
  rwa [roundNearest_intCast n h0 h] at this

/-- A positive double below 1 is below 1 by at least its unit in the last
place. -/
theorem add_ulp_le_one {r : ℚ} (hr0 : 0 < r) (hr1 : r < 1) (hd : ADM_double.roundNearest r = r) :
    r + (2 : ℚ) ^ ADM_double.ulpExponent r ≤ 1 := by
  have he : ADM_double.ulpExponent r ≤ 0 := by
    have := ulpExponent_le_of_lt (k := 0) hr0 (by simpa using hr1)
    omega
  obtain ⟨k, hk⟩ := exists_nat_neg_of_nonpos he
  have hrm := roundNearest_of_ne_zero hr0.ne'
  rw [hd, hk, two_zpow_neg_natCast] at hrm
  rw [hk, two_zpow_neg_natCast]
  have hpow : (0 : ℚ) < (2 : ℚ) ^ k := pow_pos (by norm_num) k
  set m : Int := roundHalfEven (r / (1 / (2 : ℚ) ^ k)) with hm
  have hmlt : (m : ℚ) < (2 : ℚ) ^ k := by
    have h1 : (m : ℚ) * (1 / (2 : ℚ) ^ k) < 1 := by rw [← hrm]; exact hr1
    rwa [mul_one_div, div_lt_one hpow] at h1
  have hmint : m < (2 : Int) ^ k := by
    have : (m : ℚ) < (((2 : Int) ^ k : Int) : ℚ) := by push_cast; exact hmlt
    exact_mod_cast this
  have hmle : (m : ℚ) + 1 ≤ (2 : ℚ) ^ k := by
    have : m + 1 ≤ (2 : Int) ^ k := hmint
    have hc : ((m + 1 : Int) : ℚ) ≤ (((2 : Int) ^ k : Int) : ℚ) := by exact_mod_cast this
    push_cast at hc
    exact hc
  rw [hrm]
  have hsum : (m : ℚ) * (1 / (2 : ℚ) ^ k) + 1 / (2 : ℚ) ^ k = ((m : ℚ) + 1) / (2 : ℚ) ^ k := by
    ring
  rw [hsum, div_le_one hpow]
  exact hmle

/-- The product of a double below 1 and a positive `int` rounds to a value
below that `int`. -/
theorem roundNearest_mul_lt {r : ℚ} {w : Int} (hr0 : 0 ≤ r) (hr1 : r < 1)
    (hd : ADM_double.roundNearest r = r) (hw0 : 0 < w) (hw : (w : ℚ) < (2 : ℚ) ^ (53 : Int)) :
    ADM_double.roundNearest (r * (w : ℚ)) < (w : ℚ) := by
  have hwq : (0 : ℚ) < (w : ℚ) := by exact_mod_cast hw0
  rcases hr0.eq_or_lt with rfl | hrpos
  · simpa [roundNearest_zero] using hwq
  · have hy : 0 < r * (w : ℚ) := mul_pos hrpos hwq
    have hyw : r * (w : ℚ) < (w : ℚ) := by
      calc r * (w : ℚ) < 1 * (w : ℚ) := mul_lt_mul_of_pos_right hr1 hwq
        _ = (w : ℚ) := one_mul _
    have hA := add_ulp_le_one hrpos hr1 hd
    have hA0 := two_zpow_pos (ADM_double.ulpExponent r)
    have h3 : r < (2 : ℚ) ^ (53 : Int) * (2 : ℚ) ^ ADM_double.ulpExponent r := by
      have := (scaled_bounds hrpos).2
      rwa [div_lt_iff₀ hA0] at this
    have hB0 := two_zpow_pos (ADM_double.ulpExponent (r * (w : ℚ)))
    have h2 : (2 : ℚ) ^ (52 : Int) * (2 : ℚ) ^ ADM_double.ulpExponent (r * (w : ℚ)) ≤ r * (w : ℚ) := by
      have := (scaled_bounds hy).1
      rwa [le_div_iff₀ hB0] at this
    have he : ADM_double.ulpExponent (r * (w : ℚ)) ≤ 0 := by
      have := ulpExponent_le_of_lt hy (hyw.trans hw)
      omega
    obtain ⟨k, hk⟩ := exists_nat_neg_of_nonpos he
    rw [roundNearest_of_ne_zero hy.ne']
    rw [hk, two_zpow_neg_natCast] at h2 hB0 ⊢
    have hpow : (0 : ℚ) < (2 : ℚ) ^ k := pow_pos (by norm_num) k
    -- the gap between the product and the width exceeds half a unit in the last place
    have hgap : 1 / (2 : ℚ) ^ k / 2 < (w : ℚ) - r * (w : ℚ) := by
      have e1 : (w : ℚ) * (2 : ℚ) ^ ADM_double.ulpExponent r ≤ (w : ℚ) - r * (w : ℚ) := by
        have : (w : ℚ) * (2 : ℚ) ^ ADM_double.ulpExponent r ≤ (w : ℚ) * (1 - r) :=
          mul_le_mul_of_nonneg_left (by linarith) hwq.le
        linarith
      have e2 : r * (w : ℚ) < (2 : ℚ) ^ (53 : Int) * (2 : ℚ) ^ ADM_double.ulpExponent r * (w : ℚ) :=
        mul_lt_mul_of_pos_right h3 hwq
      have c52 : (2 : ℚ) ^ (52 : Int) = 4503599627370496 := by norm_num
      have c53 : (2 : ℚ) ^ (53 : Int) = 9007199254740992 := by norm_num
      rw [c52] at h2
      rw [c53] at e2
      linarith
    have hlt : roundHalfEven (r * (w : ℚ) / (1 / (2 : ℚ) ^ k)) < w * 2 ^ k := by
      apply roundHalfEven_lt
      push_cast
      rw [div_div_eq_mul_div, div_one, ← sub_pos]
      have : (w : ℚ) * (2 : ℚ) ^ k - 1 / 2 - r * (w : ℚ) * (2 : ℚ) ^ k =
          ((w : ℚ) - r * (w : ℚ) - 1 / (2 : ℚ) ^ k / 2) * (2 : ℚ) ^ k := by
        field_simp
        ring
      rw [this]
      exact mul_pos (by linarith) hpow
    have hltq : (roundHalfEven (r * (w : ℚ) / (1 / (2 : ℚ) ^ k)) : ℚ) < (w : ℚ) * (2 : ℚ) ^ k := by
      have : ((roundHalfEven (r * (w : ℚ) / (1 / (2 : ℚ) ^ k)) : Int) : ℚ) <
          ((w * 2 ^ k : Int) : ℚ) := by exact_mod_cast hlt
      push_cast at this
      exact this
    calc (roundHalfEven (r * (w : ℚ) / (1 / (2 : ℚ) ^ k)) : ℚ) * (1 / (2 : ℚ) ^ k)
        < (w : ℚ) * (2 : ℚ) ^ k * (1 / (2 : ℚ) ^ k) :=
          mul_lt_mul_of_pos_right hltq (by positivity)
      _ = (w : ℚ) := by field_simp

/-- The unit in the last place of a positive value is fixed by the binade the
value lies in. -/
theorem ulpExponent_eq {q : ℚ} (hq : 0 < q) (e : Int)
    (h1 : (2 : ℚ) ^ (52 + e) ≤ q) (h2 : q < (2 : ℚ) ^ (53 + e)) : ADM_double.ulpExponent q = e := by
  have a := le_ulpExponent_of_le hq h1
  have b := ulpExponent_le_of_lt hq h2
  omega

/-- Evaluation of the rounding of a positive value whose binade is known. -/
theorem roundNearest_eq {q : ℚ} (hq : 0 < q) (e : Int)
    (h1 : (2 : ℚ) ^ (52 + e) ≤ q) (h2 : q < (2 : ℚ) ^ (53 + e)) :
    ADM_double.roundNearest q = (roundHalfEven (q / (2 : ℚ) ^ e) : ℚ) * (2 : ℚ) ^ e := by
  rw [roundNearest_of_ne_zero hq.ne', ulpExponent_eq hq e h1 h2]

theorem roundHalfEven_tie_odd (f : Int) (x : ℚ) (hx : x = (f : ℚ) + 1 / 2) (hodd : f % 2 = 1) :
    roundHalfEven x = f + 1 := by
  have hfl : ⌊x⌋ = f := by
    rw [Int.floor_eq_iff, hx]
    constructor <;> linarith
  have hd : x - (f : ℚ) = 1 / 2 := by rw [hx]; ring
  unfold roundHalfEven
  rw [hfl, hd]
  have h1 : ¬ ((1 : ℚ) / 2 < 1 / 2) := lt_irrefl _
  rw [if_neg h1, if_neg h1, if_neg (by omega)]

/-! ### The widget -/

theorem reports_append (a b : List Effect) : reports (a ++ b) = reports a ++ reports b := by
  induction a with
  | nil => rfl
  | cons e rest ih => cases e <;> simp [reports, ih]

theorem emitPosition_eq_clamp (w : Int) (hw : 0 ≤ w) (e : QMouseEvent) :
    emitPosition w e = [Effect.clicked (max 0 (min e.x w)) w] := by
  unfold emitPosition
  simp only [List.cons.injEq, Effect.clicked.injEq, and_true]
  split_ifs <;> omega

theorem leftHeld_iff_testBit (buttons : Nat) :
    (buttons &&& Qt.LeftButton != 0) = buttons.testBit 0 := by
  simp [Qt.LeftButton, Nat.testBit, Nat.and_comm]

theorem deliver_append (w : Int) (a b : List PointerEvent) (s : ADM_clickableLabel) :
    deliver w (a ++ b) s =
      ((deliver w b (deliver w a s).1).1,
        (deliver w a s).2 ++ (deliver w b (deliver w a s).1).2) := by
  induction a generalizing s with
  | nil => simp [deliver]
  | cons ev rest ih => simp [deliver, ih]

theorem deliver_outputs_length (w : Int) (a : List PointerEvent) (s : ADM_clickableLabel) :
    (deliver w a s).2.length = a.length := by
  induction a generalizing s with
  | nil => simp [deliver]
  | cons ev rest ih => simp [deliver, ih]

/-- The effects of the event delivered after the events `pre` are those of
its handler run in the state `pre` leaves. -/
theorem deliver_getElem_split (w : Int) (pre post : List PointerEvent) (ev : PointerEvent)
    (s : ADM_clickableLabel) :
    (deliver w (pre ++ ev :: post) s).2[pre.length]? =
      some (dispatch w ev (deliver w pre s).1).2 := by
  rw [deliver_append]
  simp only
  rw [List.getElem?_append_right (by rw [deliver_outputs_length])]
  simp [deliver_outputs_length, deliver]

theorem dispatch_dragging (w : Int) (ev : PointerEvent) (s : ADM_clickableLabel) :
    (dispatch w ev s).1.m_dragging =
      if ev.isLeftPress then true else if ev.isLeftRelease then false else s.m_dragging := by
  cases ev with
  | press e =>
    by_cases h : e.button = Qt.LeftButton <;>
      simp [dispatch, mousePressEvent, PointerEvent.isLeftPress, PointerEvent.isLeftRelease, h]
  | move e =>
    by_cases h : (s.m_dragging && (e.buttons &&& Qt.LeftButton != 0)) = true <;>
      simp [dispatch, mouseMoveEvent, PointerEvent.isLeftPress, PointerEvent.isLeftRelease, h]
  | release e =>
    by_cases h : e.button = Qt.LeftButton <;>
      simp [dispatch, mouseReleaseEvent, PointerEvent.isLeftPress, PointerEvent.isLeftRelease, h]

theorem reports_dispatch (w : Int) (hw : 0 ≤ w) (ev : PointerEvent) (s : ADM_clickableLabel) :
    reports (dispatch w ev s).2 =
      if ev.isLeftPress || (s.m_dragging && ev.isLeftHeldMove) then
        [(max 0 (min ev.event.x w), w)]
      else [] := by
  cases ev with
  | press e =>
    by_cases h : e.button = Qt.LeftButton <;>
      simp [dispatch, mousePressEvent, PointerEvent.isLeftPress, PointerEvent.isLeftHeldMove,
        PointerEvent.event, h, reports, reports_append, emitPosition_eq_clamp w hw]
  | move e =>
    by_cases h : (s.m_dragging && (e.buttons &&& Qt.LeftButton != 0)) = true
    · simp [dispatch, mouseMoveEvent, PointerEvent.isLeftPress, PointerEvent.isLeftHeldMove,
        PointerEvent.event, h, reports, reports_append, emitPosition_eq_clamp w hw]
    · simp only [dispatch, mouseMoveEvent, PointerEvent.isLeftPress, PointerEvent.isLeftHeldMove,
        PointerEvent.event, h, reports, Bool.false_or]
      simp
  | release e =>
    by_cases h : e.button = Qt.LeftButton <;>
      simp [dispatch, mouseReleaseEvent, PointerEvent.isLeftPress, PointerEvent.isLeftHeldMove,
        h, reports]

theorem pressedSince_cons (ev : PointerEvent) (rest : List PointerEvent) :
    PressedSince (ev :: rest) ↔
      (ev.isLeftPress = true ∧ ∀ r ∈ rest, r.isLeftRelease = false) ∨ PressedSince rest := by
  constructor
  · rintro ⟨a, p, b, hsplit, hp, hb⟩
    cases a with
    | nil =>
      simp only [List.nil_append, List.cons.injEq] at hsplit
      obtain ⟨rfl, rfl⟩ := hsplit
      exact Or.inl ⟨hp, hb⟩
    | cons a0 a1 =>
      simp only [List.cons_append, List.cons.injEq] at hsplit
      exact Or.inr ⟨a1, p, b, hsplit.2, hp, hb⟩
  · rintro (⟨hp, hb⟩ | ⟨a, p, b, hsplit, hp, hb⟩)
    · exact ⟨[], ev, rest, rfl, hp, hb⟩
    · exact ⟨ev :: a, p, b, by simp [hsplit], hp, hb⟩

theorem not_pressedSince_nil : ¬ PressedSince [] := by
  rintro ⟨a, p, b, hsplit, -, -⟩
  simp at hsplit

theorem deliver_dragging_iff (w : Int) (evs : List PointerEvent) (s : ADM_clickableLabel) :
    (deliver w evs s).1.m_dragging = true ↔
      PressedSince evs ∨ (s.m_dragging = true ∧ ∀ r ∈ evs, r.isLeftRelease = false) := by
  induction evs generalizing s with
  | nil => simp [deliver, not_pressedSince_nil]
  | cons ev rest ih =>
    simp only [deliver, ih, dispatch_dragging, pressedSince_cons, List.forall_mem_cons]
    by_cases hp : ev.isLeftPress = true
    · have hr : ev.isLeftRelease = false := by
        cases ev <;> simp_all [PointerEvent.isLeftPress, PointerEvent.isLeftRelease]
      simp only [hp, hr, if_true, true_and]
      tauto
    · by_cases hr : ev.isLeftRelease = true
      · simp [hp, hr]
      · simp only [hp, hr, if_false, false_and, false_or]
        simp only [Bool.not_eq_true] at hr
        simp [hr]

theorem deliver_new_dragging_iff (w : Int) (evs : List PointerEvent) :
    (deliver w evs ADM_clickableLabel.new).1.m_dragging = true ↔ PressedSince evs := by
  rw [deliver_dragging_iff]
  simp [ADM_clickableLabel.new]

theorem toInt_finite_of_nonneg (q : ℚ) (hq : 0 ≤ q) :
    ADM_double.toInt (ADM_double.finite q) = some ⌊q⌋ := by
  simp only [ADM_double.toInt, Rat.floor_def]
  rw [Int.tdiv_eq_ediv (Rat.num_nonneg.mpr hq) (Int.natCast_nonneg _)]

/-- The effects of a paint when the stored ratio is the finite value `r` and
the width is not negative: inside the guard the line is drawn at the floor of
the rounded product. -/
theorem paintEvent_finite (r : ℚ) (w : Int) (hw : 0 ≤ w) (h : Int) (d : Bool) :
    (paintEvent w h ⟨ADM_double.finite r, d⟩).2 =
      if 0 ≤ r ∧ r ≤ 1 then
        [Effect.basePaintEvent, Effect.setPen 255 255 0 2,
          Effect.drawLine ⌊ADM_double.roundNearest (r * (w : ℚ))⌋ 0
            ⌊ADM_double.roundNearest (r * (w : ℚ))⌋ h]
      else [Effect.basePaintEvent] := by
  by_cases hr : 0 ≤ r ∧ r ≤ 1
  · have hq : 0 ≤ ADM_double.roundNearest (r * (w : ℚ)) :=
      roundNearest_nonneg (mul_nonneg hr.1 (by exact_mod_cast hw))
    simp [paintEvent, ADM_double.ge, ADM_double.le, ADM_double.mulInt,
      toInt_finite_of_nonneg _ hq, hr]
  · simp only [paintEvent, ADM_double.ge, ADM_double.le, Bool.and_eq_true, decide_eq_true_eq]
    rw [if_neg hr, if_neg hr]

theorem exists_leftPress_of_pressedSince (evs : List PointerEvent) (h : PressedSince evs) :
    ∃ p ∈ evs, p.isLeftPress = true := by
  obtain ⟨a, p, b, hsplit, hp, -⟩ := h
  exact ⟨p, by simp [hsplit], hp⟩

/-- A drag that is on stays on across events none of which is a left-button
release. -/
theorem deliver_keeps_dragging (w : Int) (evs : List PointerEvent) (s : ADM_clickableLabel)
    (hs : s.m_dragging = true) (hevs : ∀ r ∈ evs, r.isLeftRelease = false) :
    (deliver w evs s).1.m_dragging = true :=
  (deliver_dragging_iff w evs s).mpr (Or.inr ⟨hs, hevs⟩)

/-- After a left-button release the drag is off as long as no left-button
press arrives. -/
theorem deliver_release_not_dragging (w : Int) (rel : PointerEvent) (evs : List PointerEvent)
    (s : ADM_clickableLabel) (hrel : rel.isLeftRelease = true)
    (hevs : ∀ p ∈ evs, p.isLeftPress = false) :
    (deliver w (rel :: evs) s).1.m_dragging = false := by
  rw [← Bool.not_eq_true, deliver_dragging_iff]
  rintro (hp | ⟨-, hr⟩)
  · obtain ⟨p, hmem, hp⟩ := exists_leftPress_of_pressedSince _ hp
    rcases List.mem_cons.mp hmem with rfl | hmem
    · cases p <;> simp_all [PointerEvent.isLeftPress, PointerEvent.isLeftRelease]
    · rw [hevs p hmem] at hp
      exact Bool.noConfusion hp
  · rw [hr rel (List.mem_cons_self _ _)] at hrel
    exact Bool.noConfusion hrel

theorem paintEvent_state (w h : Int) (s : ADM_clickableLabel) : (paintEvent w h s).1 = s := by
  unfold paintEvent
  split_ifs
  · split <;> rfl
  · rfl

/-- What a paint does depends on the stored ratio and the geometry only, not on
the drag flag. -/
theorem paintEvent_effects_of_ratio (w h : Int) (r : ADM_double) (d1 d2 : Bool) :
    (paintEvent w h ⟨r, d1⟩).2 = (paintEvent w h ⟨r, d2⟩).2 := by
  unfold paintEvent
  simp only
  split_ifs
  · split <;> rfl
  · rfl

theorem reports_paintEvent (w h : Int) (s : ADM_clickableLabel) :
    reports (paintEvent w h s).2 = [] := by
  unfold paintEvent
  split_ifs
  · split <;> rfl
  · rfl

theorem dispatch_positionRatio (w : Int) (ev : PointerEvent) (s : ADM_clickableLabel) :
    (dispatch w ev s).1.m_positionRatio = s.m_positionRatio := by
  cases ev with
  | press e =>
    simp only [dispatch, mousePressEvent]
    split_ifs <;> rfl
  | move e =>
    simp only [dispatch, mouseMoveEvent]
    split_ifs <;> rfl
  | release e =>
    simp only [dispatch, mouseReleaseEvent]
    split_ifs <;> rfl

theorem deliver_positionRatio (w : Int) (evs : List PointerEvent) (s : ADM_clickableLabel) :
    (deliver w evs s).1.m_positionRatio = s.m_positionRatio := by
  induction evs generalizing s with
  | nil => rfl
  | cons ev rest ih => simp only [deliver, ih, dispatch_positionRatio]

theorem performAll_positionRatio (w : Int) (calls : List Call) (s : ADM_clickableLabel) :
    (performAll w calls s).1.m_positionRatio = lastRatio s.m_positionRatio calls := by
  induction calls generalizing s with
  | nil => rfl
  | cons c rest ih =>
    cases c with
    | pointer ev => simp only [performAll, perform, ih, dispatch_positionRatio, lastRatio]
    | setRatio ratio => simp only [performAll, perform, ih, setPositionRatio, lastRatio]
    | paint height => simp only [performAll, perform, ih, paintEvent_state, lastRatio]

/-- No drag is on after events none of which is a left-button press. -/
theorem deliver_new_not_dragging (w : Int) (evs : List PointerEvent)
    (hevs : ∀ p ∈ evs, p.isLeftPress = false) :
    (deliver w evs ADM_clickableLabel.new).1.m_dragging = false := by
  rw [← Bool.not_eq_true, deliver_new_dragging_iff]
  intro hp
  obtain ⟨p, hmem, hpress⟩ := exists_leftPress_of_pressedSince _ hp
  rw [hevs p hmem] at hpress
  exact Bool.noConfusion hpress

theorem reports_mouseMoveEvent_idle (w : Int) (e : QMouseEvent) (s : ADM_clickableLabel)
    (hs : s.m_dragging = false) : reports (mouseMoveEvent w e s).2 = [] := by
  simp [mouseMoveEvent, hs, reports]

theorem intCast_lt_two_pow_53 (w : Int) (hmax : w ≤ INT_MAX) :
    (w : ℚ) < (2 : ℚ) ^ (53 : Int) := by
  have h : (w : ℚ) ≤ ((INT_MAX : Int) : ℚ) := by exact_mod_cast hmax
  have hc : ((INT_MAX : Int) : ℚ) = 2147483647 := by simp [INT_MAX]
  rw [hc] at h
  have : (2147483647 : ℚ) < (2 : ℚ) ^ (53 : Int) := by norm_num
  linarith

/-- The rounded product of a ratio in `[0, 1]` and an `int` width lies between
0 and the width. -/
theorem roundNearest_mul_bounds (r : ℚ) (w : Int) (h0 : 0 ≤ r) (h1 : r ≤ 1) (hw : 0 ≤ w)
    (hmax : w ≤ INT_MAX) :
    0 ≤ ADM_double.roundNearest (r * (w : ℚ)) ∧
      ADM_double.roundNearest (r * (w : ℚ)) ≤ (w : ℚ) := by
  have hwq : (0 : ℚ) ≤ (w : ℚ) := by exact_mod_cast hw
  have hq : 0 ≤ r * (w : ℚ) := mul_nonneg h0 hwq
  have hle : r * (w : ℚ) ≤ (w : ℚ) := by
    calc r * (w : ℚ) ≤ 1 * (w : ℚ) := mul_le_mul_of_nonneg_right h1 hwq
      _ = (w : ℚ) := one_mul _
  exact ⟨roundNearest_nonneg hq,
    roundNearest_le_of_le_intCast w (intCast_lt_two_pow_53 w hmax) hq hle⟩

/-- For a double ratio in `[0, 1]` and a positive `int` width the line is at
the width exactly when the ratio is 1. -/
theorem floor_roundNearest_mul_eq_iff (r : ℚ) (w : Int) (h0 : 0 ≤ r) (h1 : r ≤ 1)
    (hd : ADM_double.IsDouble r) (hw : 0 < w) (hmax : w ≤ INT_MAX) :
    ⌊ADM_double.roundNearest (r * (w : ℚ))⌋ = w ↔ r = 1 := by
  have h53 := intCast_lt_two_pow_53 w hmax
  constructor
  · intro hfl
    by_contra hne
    have hlt : r < 1 := lt_of_le_of_ne h1 hne
    have hr := roundNearest_mul_lt h0 hlt hd hw h53
    have : ⌊ADM_double.roundNearest (r * (w : ℚ))⌋ < w := Int.floor_lt.mpr hr
    omega
  · rintro rfl
    rw [one_mul, roundNearest_intCast w hw.le h53, Int.floor_intCast]

theorem truncToZero_of_nonneg (q : ℚ) (hq : 0 ≤ q) : truncToZero q = ⌊q⌋ := by
  simp only [truncToZero, Rat.floor_def]
  rw [Int.tdiv_eq_ediv (Rat.num_nonneg.mpr hq) (Int.natCast_nonneg _)]

theorem truncToZero_neg (q : ℚ) : truncToZero (-q) = -truncToZero q := by
  simp only [truncToZero, Rat.neg_num, Rat.neg_den, Int.neg_tdiv]

theorem truncToZero_of_nonpos (q : ℚ) (hq : q ≤ 0) : truncToZero q = -⌊-q⌋ := by
  have h := truncToZero_neg (-q)
  rw [neg_neg] at h
  rw [h, truncToZero_of_nonneg (-q) (neg_nonneg.mpr hq)]

theorem truncToZero_intCast (w : Int) : truncToZero (w : ℚ) = w := by
  simp [truncToZero]

/-- Truncating and then clamping as `emitPosition` does gives the same integer
as clamping the fractional position and then truncating. -/
theorem clamp_truncToZero_eq (p : ℚ) (w : Int) (hw : 0 ≤ w) :
    max 0 (min (truncToZero p) w) = clampThenTruncate p w := by
  have hwq : (0 : ℚ) ≤ (w : ℚ) := by exact_mod_cast hw
  unfold clampThenTruncate
  rcases lt_or_le p 0 with hneg | hpos
  · have ht : truncToZero p ≤ 0 := by
      rw [truncToZero_of_nonpos p hneg.le]
      have : 0 ≤ ⌊-p⌋ := Int.floor_nonneg.mpr (neg_nonneg.mpr hneg.le)
      omega
    have hmin : min p (w : ℚ) = p := min_eq_left (hneg.le.trans hwq)
    have hmax : max 0 p = 0 := max_eq_left hneg.le
    rw [hmin, hmax]
    have h0 : truncToZero 0 = 0 := by simp [truncToZero]
    rw [h0]
    omega
  · have ht : truncToZero p = ⌊p⌋ := truncToZero_of_nonneg p hpos
    have hfl : 0 ≤ ⌊p⌋ := Int.floor_nonneg.mpr hpos
    rcases le_or_lt p (w : ℚ) with hle | hgt
    · have hflw : ⌊p⌋ ≤ w := by
        have := Int.floor_mono hle
        rwa [Int.floor_intCast] at this
      rw [min_eq_left hle, max_eq_right hpos, ht]
      omega
    · have hflw : w ≤ ⌊p⌋ := Int.le_floor.mpr hgt.le
      rw [min_eq_right hgt.le, max_eq_right hwq, truncToZero_intCast, ht]
      omega

theorem toRepresentableInt_finite (p : ℚ) (hlo : INT_MIN ≤ truncToZero p)
    (hhi : truncToZero p ≤ INT_MAX) :
    ADM_double.toRepresentableInt (ADM_double.finite p) = some (truncToZero p) := by
  have h : INT_MIN ≤ truncToZero p ∧ truncToZero p ≤ INT_MAX := ⟨hlo, hhi⟩
  unfold truncToZero at h
  simp only [ADM_double.toRepresentableInt, ADM_double.toInt, truncToZero]
  rw [if_pos h]

/-- Inside the guard of `paintEvent` the product lies between 0 and the width,
an `int`, so the conversion `(int)(m_positionRatio * width())` is always of a
representable value. -/
theorem paint_conversion_representable (r : ℚ) (w : Int) (h0 : 0 ≤ r) (h1 : r ≤ 1)
    (hw : 0 ≤ w) (hmax : w ≤ INT_MAX) :
    ADM_double.toRepresentableInt (ADM_double.mulInt (ADM_double.finite r) w) =
      ADM_double.toInt (ADM_double.mulInt (ADM_double.finite r) w) := by
  obtain ⟨hq, hle⟩ := roundNearest_mul_bounds r w h0 h1 hw hmax
  have hfl0 : 0 ≤ ⌊ADM_double.roundNearest (r * (w : ℚ))⌋ := Int.floor_nonneg.mpr hq
  have hflw : ⌊ADM_double.roundNearest (r * (w : ℚ))⌋ ≤ w := by
    have := Int.floor_mono hle
    rwa [Int.floor_intCast] at this
  have hmin : INT_MIN ≤ 0 := by decide
  have hconv := toInt_finite_of_nonneg _ hq
  simp only [ADM_double.mulInt] at hconv ⊢
  simp only [ADM_double.toRepresentableInt, hconv]
  rw [if_pos ⟨by omega, by omega⟩]

/-! ## Claims -/

/-- C1. Clamping law: for every pointer offset `x` and width `w ≥ 0`,
`emitPosition` emits exactly one signal, `clicked (max 0 (min x w)) w`; the
reported position lies in `[0, w]`, equals `x` when `0 ≤ x ≤ w`, `0` when
`x < 0`, `w` when `x > w`, and is never an out-of-bounds `x`. -/
theorem emitPosition_clamping_law (w : Int) (hw : 0 ≤ w) (e : QMouseEvent) :
    ∃ p, emitPosition w e = [Effect.clicked p w] ∧
      reports (emitPosition w e) = [(p, w)] ∧
      p = max 0 (min e.x w) ∧ 0 ≤ p ∧ p ≤ w ∧
      (0 ≤ e.x → e.x ≤ w → p = e.x) ∧ (e.x < 0 → p = 0) ∧ (w < e.x → p = w) ∧
      (e.x < 0 ∨ w < e.x → p ≠ e.x) := by
  refine ⟨max 0 (min e.x w), emitPosition_eq_clamp w hw e, ?_, rfl, ?_, ?_, ?_, ?_, ?_, ?_⟩
  · rw [emitPosition_eq_clamp w hw e]; rfl
  all_goals omega

/-- Witness for C1: on a widget 200 pixels wide a pointer at `x = -10` is
reported at position 0. -/
theorem emitPosition_clamping_law_witness :
    (0 : Int) ≤ 200 ∧ ∃ p, emitPosition 200 ⟨1, 1, -10⟩ = [Effect.clicked p 200] ∧
      reports (emitPosition 200 ⟨1, 1, -10⟩) = [(p, 200)] ∧
      p = max 0 (min (-10) 200) ∧ 0 ≤ p ∧ p ≤ 200 ∧
      ((0 : Int) ≤ -10 → (-10 : Int) ≤ 200 → p = -10) ∧ ((-10 : Int) < 0 → p = 0) ∧
      ((200 : Int) < -10 → p = 200) ∧ ((-10 : Int) < 0 ∨ (200 : Int) < -10 → p ≠ -10) :=
  ⟨by decide, emitPosition_clamping_law 200 (by decide) ⟨1, 1, -10⟩⟩

/-- C2. On a widget of width `w ≥ 0`, for every sequence of pointer events
delivered to a fresh widget, the event `ev` that arrives after the events `pre`
emits exactly one report, the clamped position, when it is a left-button press,
and when it is a move with the left button held and `pre` contains a
left-button press with no left-button release after it; it emits no report when
it is a press of another button, any release, or a move that no such press
precedes. -/
theorem pointer_sequence_reports (w : Int) (hw : 0 ≤ w) (pre post : List PointerEvent)
    (ev : PointerEvent) :
    ∃ out, (deliver w (pre ++ ev :: post) ADM_clickableLabel.new).2[pre.length]? = some out ∧
      (ev.isLeftPress = true → reports out = [(max 0 (min ev.event.x w), w)]) ∧
      (ev.isLeftHeldMove = true → PressedSince pre →
        reports out = [(max 0 (min ev.event.x w), w)]) ∧
      (ev.isPress = true → ev.isLeftPress = false → reports out = []) ∧
      (ev.isRelease = true → reports out = []) ∧
      (ev.isMove = true → ¬ PressedSince pre → reports out = []) := by
  refine ⟨_, deliver_getElem_split w pre post ev _, ?_, ?_, ?_, ?_, ?_⟩
  · intro h
    simp [reports_dispatch w hw, h]
  · intro h hp
    rw [← deliver_new_dragging_iff w] at hp
    simp [reports_dispatch w hw, h, hp]
  · intro h1 h2
    cases ev <;> simp_all [reports_dispatch w hw, PointerEvent.isPress,
      PointerEvent.isLeftHeldMove]
  · intro h
    cases ev <;> simp_all [reports_dispatch w hw, PointerEvent.isRelease,
      PointerEvent.isLeftPress, PointerEvent.isLeftHeldMove]
  · intro h hp
    rw [← deliver_new_dragging_iff w] at hp
    cases ev <;> simp_all [reports_dispatch w hw, PointerEvent.isMove,
      PointerEvent.isLeftPress]

/-- Witness for C2, the scenario on a widget 200 pixels wide: a left press at
`x = -10` reports `(0, 200)`, a move to `x = 250` with the left button held
reports `(200, 200)`, the release reports nothing and the move to `x = 100`
that follows it reports nothing. -/
theorem pointer_sequence_reports_witness :
    (0 : Int) ≤ 200 ∧
    (deliver 200 [PointerEvent.press ⟨1, 1, -10⟩, PointerEvent.move ⟨0, 1, 250⟩,
        PointerEvent.release ⟨1, 0, 250⟩, PointerEvent.move ⟨0, 1, 100⟩]
      ADM_clickableLabel.new).2.map reports = [[(0, 200)], [(200, 200)], [], []] ∧
    PressedSince [PointerEvent.press ⟨1, 1, -10⟩] ∧
    ∃ out, (deliver 200 ([PointerEvent.press ⟨1, 1, -10⟩] ++ PointerEvent.move ⟨0, 1, 250⟩ ::
        [PointerEvent.release ⟨1, 0, 250⟩, PointerEvent.move ⟨0, 1, 100⟩])
      ADM_clickableLabel.new).2[1]? = some out ∧ reports out = [(200, 200)] := by
  have hp : PressedSince [PointerEvent.press ⟨1, 1, -10⟩] :=
    ⟨[], PointerEvent.press ⟨1, 1, -10⟩, [], rfl, by decide, by simp⟩
  obtain ⟨out, h1, -, h2, -⟩ := pointer_sequence_reports 200 (by decide)
    [PointerEvent.press ⟨1, 1, -10⟩]
    [PointerEvent.release ⟨1, 0, 250⟩, PointerEvent.move ⟨0, 1, 100⟩]
    (PointerEvent.move ⟨0, 1, 250⟩)
  exact ⟨by decide, by decide, hp, out, h1, h2 (by decide) hp⟩

/-- Counterexample to C3 as stated: the ratio `3152519739159347 / 2 ^ 52`, the
double nearest to 0.7, lies in `[0, 1]`, and on a surface 10 pixels wide the
floor of its exact product with the width is 6, but the double product rounds
to 7 and the line is drawn at `x = 7`. -/
theorem paint_floor_of_exact_product_counterexample :
    (0 : ℚ) ≤ 3152519739159347 / 4503599627370496 ∧
    (3152519739159347 / 4503599627370496 : ℚ) ≤ 1 ∧
    ADM_double.IsDouble (3152519739159347 / 4503599627370496) ∧
    ⌊(3152519739159347 / 4503599627370496 : ℚ) * ((10 : Int) : ℚ)⌋ = 6 ∧
    indicatorLines (paintEvent 10 40
      (setPositionRatio (ADM_double.finite (3152519739159347 / 4503599627370496))
        ADM_clickableLabel.new).1).2 = [(7, 0, 7, 40)] := by
  have hdouble : ADM_double.IsDouble (3152519739159347 / 4503599627370496) := by
    unfold ADM_double.IsDouble
    rw [roundNearest_eq (by norm_num) (-53) (by norm_num) (by norm_num)]
    have hs : (3152519739159347 / 4503599627370496 : ℚ) / (2 : ℚ) ^ (-53 : Int) =
        ((6305039478318694 : Int) : ℚ) := by norm_num
    rw [hs, roundHalfEven_intCast]
    norm_num
  have hround : ADM_double.roundNearest
      ((3152519739159347 / 4503599627370496 : ℚ) * ((10 : Int) : ℚ)) = 7 := by
    rw [roundNearest_eq (by norm_num) (-50) (by norm_num) (by norm_num)]
    rw [roundHalfEven_tie_odd 7881299347898367 _ (by norm_num) (by decide)]
    norm_num
  refine ⟨by norm_num, by norm_num, hdouble, ?_, ?_⟩
  · rw [Int.floor_eq_iff]; norm_num
  · have hs : (setPositionRatio (ADM_double.finite (3152519739159347 / 4503599627370496))
        ADM_clickableLabel.new).1 =
        ⟨ADM_double.finite (3152519739159347 / 4503599627370496), false⟩ := rfl
    rw [hs, paintEvent_finite _ 10 (by decide) 40 false, if_pos ⟨by norm_num, by norm_num⟩,
      hround]
    have hfl : ⌊(7 : ℚ)⌋ = 7 := by
      rw [Int.floor_eq_iff]; norm_num
    rw [hfl]
    rfl

/-- C3, amended. For every ratio `r`, every `int` width `w ≥ 0` and every
height `h`: a paint after `setPositionRatio r` draws an indicator line if and
only if `0 ≤ r ≤ 1`; when it does, the line runs from `(x, 0)` to `(x, h)`
with `x` the truncation of the double product, the exact product `r * w`
rounded to the nearest double; this `x` is `⌊r * w⌋` or `⌊r * w⌋ + 1`, and it
is `⌊r * w⌋` whenever the exact product is itself a double; for `r` outside
`[0, 1]`, every negative value included, nothing is drawn on top of the
label. -/
theorem paint_after_setPositionRatio (r : ℚ) (w : Int) (hw : 0 ≤ w) (hmax : w ≤ INT_MAX)
    (h : Int) (s : ADM_clickableLabel) :
    (indicatorLines (paintEvent w h (setPositionRatio (ADM_double.finite r) s).1).2 ≠ [] ↔
      0 ≤ r ∧ r ≤ 1) ∧
    (0 ≤ r ∧ r ≤ 1 → ∃ x : Int,
      (paintEvent w h (setPositionRatio (ADM_double.finite r) s).1).2 =
          [Effect.basePaintEvent, Effect.setPen 255 255 0 2, Effect.drawLine x 0 x h] ∧
        indicatorLines (paintEvent w h (setPositionRatio (ADM_double.finite r) s).1).2 =
          [(x, 0, x, h)] ∧
        x = ⌊ADM_double.roundNearest (r * (w : ℚ))⌋ ∧
        ⌊r * (w : ℚ)⌋ ≤ x ∧ x ≤ ⌊r * (w : ℚ)⌋ + 1 ∧
        (ADM_double.IsDouble (r * (w : ℚ)) → x = ⌊r * (w : ℚ)⌋)) ∧
    (¬ (0 ≤ r ∧ r ≤ 1) →
      (paintEvent w h (setPositionRatio (ADM_double.finite r) s).1).2 =
        [Effect.basePaintEvent]) ∧
    (r < 0 → indicatorLines (paintEvent w h (setPositionRatio (ADM_double.finite r) s).1).2 = []) := by
  have key := paintEvent_finite r w hw h s.m_dragging
  have hs : (setPositionRatio (ADM_double.finite r) s).1 = ⟨ADM_double.finite r, s.m_dragging⟩ := rfl
  rw [hs, key]
  refine ⟨?_, ?_, ?_, ?_⟩
  · by_cases hr : 0 ≤ r ∧ r ≤ 1 <;> simp [hr, indicatorLines]
  · intro hr
    have hwq : (0 : ℚ) ≤ (w : ℚ) := by exact_mod_cast hw
    have hy0 : 0 ≤ r * (w : ℚ) := mul_nonneg hr.1 hwq
    have hyw : r * (w : ℚ) ≤ (w : ℚ) := by
      calc r * (w : ℚ) ≤ 1 * (w : ℚ) := mul_le_mul_of_nonneg_right hr.2 hwq
        _ = (w : ℚ) := one_mul _
    have hfl0 : 0 ≤ ⌊r * (w : ℚ)⌋ := Int.floor_nonneg.mpr hy0
    have hflw : ⌊r * (w : ℚ)⌋ ≤ w := by
      have := Int.floor_mono hyw
      rwa [Int.floor_intCast] at this
    have hlow : ⌊r * (w : ℚ)⌋ ≤ ⌊ADM_double.roundNearest (r * (w : ℚ))⌋ :=
      Int.le_floor.mpr (le_roundNearest_of_intCast_le _ hfl0
        (intCast_lt_two_pow_53 _ (hflw.trans hmax)) (Int.floor_le _))
    have hup : ⌊ADM_double.roundNearest (r * (w : ℚ))⌋ ≤ ⌊r * (w : ℚ)⌋ + 1 := by
      have h53 : ((⌊r * (w : ℚ)⌋ + 1 : Int) : ℚ) < (2 : ℚ) ^ (53 : Int) := by
        have hc : ((⌊r * (w : ℚ)⌋ + 1 : Int) : ℚ) ≤ ((2147483648 : Int) : ℚ) := by
          have hmaxv : INT_MAX = 2147483647 := rfl
          have : ⌊r * (w : ℚ)⌋ + 1 ≤ 2147483648 := by omega
          exact_mod_cast this
        have : (((2147483648 : Int) : ℚ)) < (2 : ℚ) ^ (53 : Int) := by norm_num
        linarith
      have hle : r * (w : ℚ) ≤ ((⌊r * (w : ℚ)⌋ + 1 : Int) : ℚ) := by
        push_cast
        exact (Int.lt_floor_add_one _).le
      have := Int.floor_mono (roundNearest_le_of_le_intCast _ h53 hy0 hle)
      rwa [Int.floor_intCast] at this
    refine ⟨⌊ADM_double.roundNearest (r * (w : ℚ))⌋, by simp [hr], by simp [hr, indicatorLines],
      rfl, hlow, hup, ?_⟩
    intro hd
    unfold ADM_double.IsDouble at hd
    rw [hd]
  · intro hr
    simp [hr]
  · intro hr
    have : ¬ (0 ≤ r ∧ r ≤ 1) := fun hc => absurd hc.1 (not_le.mpr hr)
    simp [this, indicatorLines]

/-- Witness for C3, amended, the scenario on a surface 300 pixels wide and 40
high: after `setPositionRatio 0.5` the product 150 is a double and the line is
drawn at `x = 150`; after a following `setPositionRatio (-1.0)` no line is
drawn. -/
theorem paint_after_setPositionRatio_witness :
    (0 : Int) ≤ 300 ∧ (300 : Int) ≤ INT_MAX ∧
    ADM_double.IsDouble ((1 / 2 : ℚ) * ((300 : Int) : ℚ)) ∧
    indicatorLines (paintEvent 300 40
      (setPositionRatio (ADM_double.finite (1 / 2)) ADM_clickableLabel.new).1).2 =
        [(150, 0, 150, 40)] ∧
    indicatorLines (paintEvent 300 40
      (setPositionRatio (ADM_double.finite (-1))
        (setPositionRatio (ADM_double.finite (1 / 2)) ADM_clickableLabel.new).1).1).2 = [] := by
  have hprod : (1 / 2 : ℚ) * ((300 : Int) : ℚ) = ((150 : Int) : ℚ) := by norm_num
  have hdouble : ADM_double.IsDouble ((1 / 2 : ℚ) * ((300 : Int) : ℚ)) := by
    unfold ADM_double.IsDouble
    rw [hprod]
    exact roundNearest_intCast 150 (by decide) (by norm_num)
  obtain ⟨x, -, hline, -, -, -, hx⟩ :=
    (paint_after_setPositionRatio (1 / 2) 300 (by decide) (by decide) 40
      ADM_clickableLabel.new).2.1 ⟨by norm_num, by norm_num⟩
  have h2 := (paint_after_setPositionRatio (-1) 300 (by decide) (by decide) 40
    (setPositionRatio (ADM_double.finite (1 / 2)) ADM_clickableLabel.new).1).2.2.2 (by norm_num)
  have hx150 : x = 150 := by
    rw [hx hdouble, hprod, Int.floor_intCast]
  rw [hx150] at hline
  exact ⟨by decide, by decide, hdouble, hline, h2⟩

/-- Counterexample to C4 as stated: after a left press and a move whose
held-buttons mask holds only the right button, `m_dragging` is still true
although the most recently observed mask does not report the left button. -/
theorem dragState_held_invariant_counterexample :
    (deliver 200 [PointerEvent.press ⟨1, 1, 10⟩, PointerEvent.move ⟨0, 2, 20⟩]
      ADM_clickableLabel.new).1.m_dragging = true ∧
    (PointerEvent.move ⟨0, 2, 20⟩).event.buttons &&& Qt.LeftButton = 0 := by
  decide

/-- C4, amended. In every state reached from a fresh widget by pointer events,
`m_dragging` is true exactly when a left-button press was delivered with no
left-button release after it; a move leaves `m_dragging` as it is, whatever
its mask; and a move emits a report only if `m_dragging` is true and its own
mask reports the left button held. -/
theorem dragState_tracks_press_and_release (w : Int) (pre : List PointerEvent) :
    ((deliver w pre ADM_clickableLabel.new).1.m_dragging = true ↔ PressedSince pre) ∧
    (∀ e : QMouseEvent,
      (mouseMoveEvent w e (deliver w pre ADM_clickableLabel.new).1).1 =
        (deliver w pre ADM_clickableLabel.new).1) ∧
    (∀ e : QMouseEvent,
      reports (mouseMoveEvent w e (deliver w pre ADM_clickableLabel.new).1).2 ≠ [] →
        (deliver w pre ADM_clickableLabel.new).1.m_dragging = true ∧
          e.buttons &&& Qt.LeftButton ≠ 0) := by
  refine ⟨deliver_new_dragging_iff w pre, ?_, ?_⟩
  · intro e
    unfold mouseMoveEvent
    split_ifs <;> rfl
  · intro e
    unfold mouseMoveEvent
    split_ifs with h
    · intro _
      simpa using h
    · intro hne
      exact absurd rfl hne

/-- Witness for C4, amended: after a left press, a move holding the left
button reports, and then indeed the widget is dragging and the mask has the
left button; after a press and a release nothing is pressed since. -/
theorem dragState_tracks_press_and_release_witness :
    reports (mouseMoveEvent 200 ⟨0, 1, 20⟩
      (deliver 200 [PointerEvent.press ⟨1, 1, 10⟩] ADM_clickableLabel.new).1).2 ≠ [] ∧
    (deliver 200 [PointerEvent.press ⟨1, 1, 10⟩] ADM_clickableLabel.new).1.m_dragging = true ∧
    (1 : Nat) &&& Qt.LeftButton ≠ 0 ∧
    PressedSince [PointerEvent.press ⟨1, 1, 10⟩] ∧
    ¬ PressedSince [PointerEvent.press ⟨1, 1, 10⟩, PointerEvent.release ⟨1, 0, 10⟩] := by
  have h := dragState_tracks_press_and_release 200 [PointerEvent.press ⟨1, 1, 10⟩]
  have h2 := dragState_tracks_press_and_release 200
    [PointerEvent.press ⟨1, 1, 10⟩, PointerEvent.release ⟨1, 0, 10⟩]
  have hne : reports (mouseMoveEvent 200 ⟨0, 1, 20⟩
      (deliver 200 [PointerEvent.press ⟨1, 1, 10⟩] ADM_clickableLabel.new).1).2 ≠ [] := by
    decide
  exact ⟨hne, (h.2.2 ⟨0, 1, 20⟩ hne).1, (h.2.2 ⟨0, 1, 20⟩ hne).2, h.1.mp (by decide),
    fun hp => absurd (h2.1.mpr hp) (by decide)⟩

/-- Counterexample to C5 as stated: while dragging, a move without the left
button is followed, with no new press, by a move with the left button held,
and that later move emits the report `(30, 200)`. -/
theorem move_without_left_cancels_counterexample :
    (deliver 200 [PointerEvent.press ⟨1, 1, 10⟩, PointerEvent.move ⟨0, 2, 20⟩,
        PointerEvent.move ⟨0, 1, 30⟩] ADM_clickableLabel.new).2.map reports =
      [[(10, 200)], [], [(30, 200)]] := by
  decide

/-- C5, amended. On a widget of width `w ≥ 0`, a move without the left button
that arrives during a drag emits no report and leaves `m_dragging` true, and a
later move with the left button held, with no left-button release in between,
emits the clamped report without any new press; after a left-button release,
a move emits no report as long as no left-button press has arrived. -/
theorem move_without_left_suspends_report_only (w : Int) (hw : 0 ≤ w)
    (pre mid : List PointerEvent) (e2 : QMouseEvent) (he2 : e2.buttons &&& Qt.LeftButton ≠ 0) :
    (∀ mv : PointerEvent, PressedSince pre → mv.isMove = true → mv.isLeftHeldMove = false →
      (∀ r ∈ mid, r.isLeftRelease = false) →
        reports (dispatch w mv (deliver w pre ADM_clickableLabel.new).1).2 = [] ∧
        (dispatch w mv (deliver w pre ADM_clickableLabel.new).1).1.m_dragging = true ∧
        reports (mouseMoveEvent w e2
          (deliver w (pre ++ mv :: mid) ADM_clickableLabel.new).1).2 =
            [(max 0 (min e2.x w), w)]) ∧
    (∀ rel : PointerEvent, rel.isLeftRelease = true → (∀ p ∈ mid, p.isLeftPress = false) →
      reports (mouseMoveEvent w e2
        (deliver w (pre ++ rel :: mid) ADM_clickableLabel.new).1).2 = []) := by
  have hheld : (PointerEvent.move e2).isLeftHeldMove = true := by
    simpa [PointerEvent.isLeftHeldMove] using he2
  have hmove : ∀ s : ADM_clickableLabel, reports (mouseMoveEvent w e2 s).2 =
      if s.m_dragging then [(max 0 (min e2.x w), w)] else [] := by
    intro s
    have := reports_dispatch w hw (PointerEvent.move e2) s
    simpa [dispatch, PointerEvent.isLeftPress, hheld, PointerEvent.event] using this
  constructor
  · intro mv hpre hmv hnot hmid
    have hd : (deliver w pre ADM_clickableLabel.new).1.m_dragging = true :=
      (deliver_new_dragging_iff w pre).mpr hpre
    have hmvr : mv.isLeftRelease = false := by
      cases mv <;> simp_all [PointerEvent.isMove, PointerEvent.isLeftRelease]
    have hmvp : mv.isLeftPress = false := by
      cases mv <;> simp_all [PointerEvent.isMove, PointerEvent.isLeftPress]
    refine ⟨?_, ?_, ?_⟩
    · simp [reports_dispatch w hw, hmvp, hnot]
    · simp [dispatch_dragging, hmvp, hmvr, hd]
    · rw [hmove, deliver_append]
      have := deliver_keeps_dragging w (mv :: mid) (deliver w pre ADM_clickableLabel.new).1 hd
        (by simpa [hmvr] using hmid)
      simp [this]
  · intro rel hrel hmid
    rw [hmove, deliver_append]
    have := deliver_release_not_dragging w rel mid (deliver w pre ADM_clickableLabel.new).1
      hrel hmid
    simp [this]

/-- Witness for C5, amended, on a widget 200 pixels wide: after a left press
and a move holding only the right button, a move holding the left button
reports `(30, 200)`; after a left press and a left release it reports
nothing. -/
theorem move_without_left_suspends_report_only_witness :
    (0 : Int) ≤ 200 ∧ (1 : Nat) &&& Qt.LeftButton ≠ 0 ∧
    PressedSince [PointerEvent.press ⟨1, 1, 10⟩] ∧
    reports (mouseMoveEvent 200 ⟨0, 1, 30⟩
      (deliver 200 ([PointerEvent.press ⟨1, 1, 10⟩] ++ PointerEvent.move ⟨0, 2, 20⟩ :: [])
        ADM_clickableLabel.new).1).2 = [(30, 200)] ∧
    reports (mouseMoveEvent 200 ⟨0, 1, 30⟩
      (deliver 200 ([PointerEvent.press ⟨1, 1, 10⟩] ++ PointerEvent.release ⟨1, 0, 20⟩ :: [])
        ADM_clickableLabel.new).1).2 = [] := by
  have hp : PressedSince [PointerEvent.press ⟨1, 1, 10⟩] :=
    ⟨[], PointerEvent.press ⟨1, 1, 10⟩, [], rfl, by decide, by simp⟩
  have h := move_without_left_suspends_report_only 200 (by decide)
    [PointerEvent.press ⟨1, 1, 10⟩] [] ⟨0, 1, 30⟩ (by decide)
  exact ⟨by decide, by decide, hp,
    (h.1 (PointerEvent.move ⟨0, 2, 20⟩) hp (by decide) (by decide) (by simp)).2.2,
    h.2 (PointerEvent.release ⟨1, 0, 20⟩) (by decide) (by simp)⟩

/-- C6. Pointer-move step, for every event and width `w ≥ 0`: (a) while
dragging with the left button in the mask, `mouseMoveEvent` emits exactly one
report, the clamped position, and leaves the state as it is; (b) while dragging
with the left button not in the mask it emits nothing and leaves the state as
it is, still dragging; (c) while idle it emits nothing and stays idle, whatever
the mask. -/
theorem mouseMoveEvent_step (w : Int) (hw : 0 ≤ w) (e : QMouseEvent) (s : ADM_clickableLabel) :
    (s.m_dragging = true → e.buttons &&& Qt.LeftButton ≠ 0 →
      mouseMoveEvent w e s =
          (s, [Effect.clicked (max 0 (min e.x w)) w, Effect.baseMouseMoveEvent]) ∧
        reports (mouseMoveEvent w e s).2 = [(max 0 (min e.x w), w)] ∧
        (mouseMoveEvent w e s).1.m_dragging = true) ∧
    (s.m_dragging = true → e.buttons &&& Qt.LeftButton = 0 →
      mouseMoveEvent w e s = (s, [Effect.baseMouseMoveEvent]) ∧
        reports (mouseMoveEvent w e s).2 = [] ∧
        (mouseMoveEvent w e s).1.m_dragging = true) ∧
    (s.m_dragging = false →
      mouseMoveEvent w e s = (s, [Effect.baseMouseMoveEvent]) ∧
        reports (mouseMoveEvent w e s).2 = [] ∧
        (mouseMoveEvent w e s).1.m_dragging = false) := by
  refine ⟨?_, ?_, ?_⟩
  · intro hd hb
    have hres : mouseMoveEvent w e s =
        (s, [Effect.clicked (max 0 (min e.x w)) w, Effect.baseMouseMoveEvent]) := by
      simp [mouseMoveEvent, hd, hb, emitPosition_eq_clamp w hw]
    rw [hres]
    exact ⟨rfl, rfl, hd⟩
  · intro hd hb
    have hres : mouseMoveEvent w e s = (s, [Effect.baseMouseMoveEvent]) := by
      simp [mouseMoveEvent, hb]
    rw [hres]
    exact ⟨rfl, rfl, hd⟩
  · intro hd
    have hres : mouseMoveEvent w e s = (s, [Effect.baseMouseMoveEvent]) := by
      simp [mouseMoveEvent, hd]
    rw [hres]
    exact ⟨rfl, rfl, hd⟩

/-- Witness for C6 on a widget 200 pixels wide: a dragging widget reports
`(200, 200)` for a move to `x = 250` with the left button held, and nothing for
the same move with only the right button held; an idle widget reports nothing
although the left button is held. -/
theorem mouseMoveEvent_step_witness :
    (0 : Int) ≤ 200 ∧
    mouseMoveEvent 200 ⟨0, 1, 250⟩ ⟨ADM_double.finite (-1), true⟩ =
      (⟨ADM_double.finite (-1), true⟩,
        [Effect.clicked 200 200, Effect.baseMouseMoveEvent]) ∧
    mouseMoveEvent 200 ⟨0, 2, 250⟩ ⟨ADM_double.finite (-1), true⟩ =
      (⟨ADM_double.finite (-1), true⟩, [Effect.baseMouseMoveEvent]) ∧
    mouseMoveEvent 200 ⟨0, 1, 250⟩ ⟨ADM_double.finite (-1), false⟩ =
      (⟨ADM_double.finite (-1), false⟩, [Effect.baseMouseMoveEvent]) :=
  ⟨by decide,
    ((mouseMoveEvent_step 200 (by decide) ⟨0, 1, 250⟩ ⟨ADM_double.finite (-1), true⟩).1
      rfl (by decide)).1,
    ((mouseMoveEvent_step 200 (by decide) ⟨0, 2, 250⟩ ⟨ADM_double.finite (-1), true⟩).2.1
      rfl (by decide)).1,
    ((mouseMoveEvent_step 200 (by decide) ⟨0, 1, 250⟩ ⟨ADM_double.finite (-1), false⟩).2.2
      rfl).1⟩

/-- C7. Release step: from every state, idle or dragging, and for every
held-buttons mask and pointer offset carried by the event, a left-button
release leaves `m_dragging` false, keeps the stored ratio, and emits no
report; its only effect is the call of the base handler. -/
theorem left_release_clears_dragState (buttons : Nat) (x : Int) (s : ADM_clickableLabel) :
    (mouseReleaseEvent ⟨Qt.LeftButton, buttons, x⟩ s).1.m_dragging = false ∧
    reports (mouseReleaseEvent ⟨Qt.LeftButton, buttons, x⟩ s).2 = [] ∧
    mouseReleaseEvent ⟨Qt.LeftButton, buttons, x⟩ s =
      (⟨s.m_positionRatio, false⟩, [Effect.baseMouseReleaseEvent]) := by
  have hres : mouseReleaseEvent ⟨Qt.LeftButton, buttons, x⟩ s =
      (⟨s.m_positionRatio, false⟩, [Effect.baseMouseReleaseEvent]) := by
    simp [mouseReleaseEvent]
  rw [hres]
  exact ⟨rfl, rfl, rfl⟩

/-- C8. Non-left buttons are ignored: for every state and every event whose
button is not the left button, `mousePressEvent` and `mouseReleaseEvent` emit
no report and return the state unchanged, `m_dragging` and `m_positionRatio`
alike; the base handler is still called. -/
theorem non_left_button_ignored (w : Int) (e : QMouseEvent) (s : ADM_clickableLabel)
    (hb : e.button ≠ Qt.LeftButton) :
    (mousePressEvent w e s).1 = s ∧ reports (mousePressEvent w e s).2 = [] ∧
    (mouseReleaseEvent e s).1 = s ∧ reports (mouseReleaseEvent e s).2 = [] ∧
    mousePressEvent w e s = (s, [Effect.baseMousePressEvent]) ∧
    mouseReleaseEvent e s = (s, [Effect.baseMouseReleaseEvent]) := by
  have hp : mousePressEvent w e s = (s, [Effect.baseMousePressEvent]) := by
    simp [mousePressEvent, hb]
  have hr : mouseReleaseEvent e s = (s, [Effect.baseMouseReleaseEvent]) := by
    simp [mouseReleaseEvent, hb]
  rw [hp, hr]
  exact ⟨rfl, rfl, rfl, rfl, rfl, rfl⟩

/-- Witness for C8: a right-button press and a right-button release on a
dragging widget whose ratio is one half leave it as it is and report nothing. -/
theorem non_left_button_ignored_witness :
    Qt.RightButton ≠ Qt.LeftButton ∧
    (mousePressEvent 200 ⟨Qt.RightButton, 3, 50⟩ ⟨ADM_double.finite (1 / 2), true⟩).1 =
      ⟨ADM_double.finite (1 / 2), true⟩ ∧
    reports (mousePressEvent 200 ⟨Qt.RightButton, 3, 50⟩
      ⟨ADM_double.finite (1 / 2), true⟩).2 = [] ∧
    (mouseReleaseEvent ⟨Qt.RightButton, 1, 50⟩ ⟨ADM_double.finite (1 / 2), true⟩).1 =
      ⟨ADM_double.finite (1 / 2), true⟩ ∧
    reports (mouseReleaseEvent ⟨Qt.RightButton, 1, 50⟩
      ⟨ADM_double.finite (1 / 2), true⟩).2 = [] :=
  ⟨by decide,
    (non_left_button_ignored 200 ⟨Qt.RightButton, 3, 50⟩ ⟨ADM_double.finite (1 / 2), true⟩
      (by decide)).1,
    (non_left_button_ignored 200 ⟨Qt.RightButton, 3, 50⟩ ⟨ADM_double.finite (1 / 2), true⟩
      (by decide)).2.1,
    (non_left_button_ignored 200 ⟨Qt.RightButton, 1, 50⟩ ⟨ADM_double.finite (1 / 2), true⟩
      (by decide)).2.2.1,
    (non_left_button_ignored 200 ⟨Qt.RightButton, 1, 50⟩ ⟨ADM_double.finite (1 / 2), true⟩
      (by decide)).2.2.2.1⟩

/-- C9. The setter is unconditional: for every value `r`, finite in or out of
range, infinite or NaN, and every prior state, after `setPositionRatio r` the
stored ratio is `r` itself, `m_dragging` is unchanged, and no report is
emitted; its only effect is the call of `update`. -/
theorem setPositionRatio_unconditional (r : ADM_double) (s : ADM_clickableLabel) :
    (setPositionRatio r s).1.m_positionRatio = r ∧
    (setPositionRatio r s).1.m_dragging = s.m_dragging ∧
    reports (setPositionRatio r s).2 = [] ∧
    (setPositionRatio r s).2 = [Effect.update] :=
  ⟨rfl, rfl, rfl, rfl⟩

/-- C10. Idempotence and last write wins: for all values `r`, `r1`, `r2`, every
prior state, width and height, a paint after `setPositionRatio r` twice
performs the same effects, and so draws the same overlay, as a paint after
`setPositionRatio r` once, and a paint after `setPositionRatio r1` then
`setPositionRatio r2` the same as after `setPositionRatio r2` alone. -/
theorem setPositionRatio_last_write_wins (r r1 r2 : ADM_double) (w h : Int)
    (s : ADM_clickableLabel) :
    (paintEvent w h (setPositionRatio r (setPositionRatio r s).1).1).2 =
      (paintEvent w h (setPositionRatio r s).1).2 ∧
    indicatorLines (paintEvent w h (setPositionRatio r (setPositionRatio r s).1).1).2 =
      indicatorLines (paintEvent w h (setPositionRatio r s).1).2 ∧
    (paintEvent w h (setPositionRatio r2 (setPositionRatio r1 s).1).1).2 =
      (paintEvent w h (setPositionRatio r2 s).1).2 ∧
    indicatorLines (paintEvent w h (setPositionRatio r2 (setPositionRatio r1 s).1).1).2 =
      indicatorLines (paintEvent w h (setPositionRatio r2 s).1).2 := by
  have hlast : ∀ a b : ADM_double,
      (setPositionRatio b (setPositionRatio a s).1).1 = (setPositionRatio b s).1 :=
    fun _ _ => rfl
  rw [hlast r r, hlast r1 r2]
  exact ⟨rfl, rfl, rfl, rfl⟩

/-- C11. Rendering is a pure read: for every state, width and height,
`paintEvent` returns the state it was given, `m_positionRatio` and `m_dragging`
alike, and emits no position report; so a second paint with the same width and
height performs the same effects and draws the same overlay as the first. -/
theorem paintEvent_pure_read (w h : Int) (s : ADM_clickableLabel) :
    (paintEvent w h s).1 = s ∧
    (paintEvent w h s).1.m_positionRatio = s.m_positionRatio ∧
    (paintEvent w h s).1.m_dragging = s.m_dragging ∧
    reports (paintEvent w h s).2 = [] ∧
    (paintEvent w h (paintEvent w h s).1).2 = (paintEvent w h s).2 ∧
    indicatorLines (paintEvent w h (paintEvent w h s).1).2 =
      indicatorLines (paintEvent w h s).2 := by
  have hs := paintEvent_state w h s
  rw [hs]
  exact ⟨rfl, rfl, rfl, reports_paintEvent w h s, rfl, rfl⟩

/-- C12. The stored ratio is changed by `setPositionRatio` only: every pointer
event, press, move or release with any button, mask and offset, leaves
`m_positionRatio` as it was, and so does every sequence of pointer events;
over any sequence of pointer events, setter calls and paints the stored ratio
is the argument of the last setter call, or the initial value when there is
none, and a paint afterwards draws what that ratio alone determines. -/
theorem positionRatio_changed_by_setter_only (w : Int) (s : ADM_clickableLabel) :
    (∀ ev : PointerEvent, (dispatch w ev s).1.m_positionRatio = s.m_positionRatio) ∧
    (∀ evs : List PointerEvent, (deliver w evs s).1.m_positionRatio = s.m_positionRatio) ∧
    (∀ calls : List Call,
      (performAll w calls s).1.m_positionRatio = lastRatio s.m_positionRatio calls) ∧
    (∀ (calls : List Call) (w2 h : Int) (d : Bool),
      (paintEvent w2 h (performAll w calls s).1).2 =
        (paintEvent w2 h ⟨lastRatio s.m_positionRatio calls, d⟩).2) := by
  refine ⟨fun ev => dispatch_positionRatio w ev s, fun evs => deliver_positionRatio w evs s,
    fun calls => performAll_positionRatio w calls s, ?_⟩
  intro calls w2 h d
  have hr := performAll_positionRatio w calls s
  have hst : (performAll w calls s).1 =
      ⟨lastRatio s.m_positionRatio calls, (performAll w calls s).1.m_dragging⟩ := by
    rw [← hr]
  rw [hst]
  exact paintEvent_effects_of_ratio w2 h _ _ _

/-- C13. The fresh widget is idle and hidden: its ratio is `-1`, a paint draws
no indicator for any width and height, a pointer move emits no report whatever
its mask, and the same holds for a move after any events none of which is a
left-button press. -/
theorem fresh_widget_idle_and_hidden (w h : Int) (e : QMouseEvent) (pre : List PointerEvent) :
    ADM_clickableLabel.new.m_positionRatio = ADM_double.finite (-1) ∧
    ADM_clickableLabel.new.m_dragging = false ∧
    (paintEvent w h ADM_clickableLabel.new).2 = [Effect.basePaintEvent] ∧
    indicatorLines (paintEvent w h ADM_clickableLabel.new).2 = [] ∧
    reports (mouseMoveEvent w e ADM_clickableLabel.new).2 = [] ∧
    ((∀ p ∈ pre, p.isLeftPress = false) →
      reports (mouseMoveEvent w e (deliver w pre ADM_clickableLabel.new).1).2 = []) := by
  have hguard : ¬ ((ADM_double.ge (ADM_double.finite (-1)) (ADM_double.finite 0)
      && ADM_double.le (ADM_double.finite (-1)) (ADM_double.finite 1)) = true) := by
    norm_num [ADM_double.ge, ADM_double.le]
  have hpaint : (paintEvent w h ADM_clickableLabel.new).2 = [Effect.basePaintEvent] := by
    simp only [paintEvent, ADM_clickableLabel.new]
    rw [if_neg hguard]
  refine ⟨rfl, rfl, hpaint, ?_, reports_mouseMoveEvent_idle w e _ rfl, ?_⟩
  · rw [hpaint]; rfl
  · intro hpre
    exact reports_mouseMoveEvent_idle w e _ (deliver_new_not_dragging w pre hpre)

/-- Witness for C13: on a fresh widget 200 pixels wide, after a right-button
press and a move, a move to `x = 50` with the left button in its mask reports
nothing. -/
theorem fresh_widget_idle_and_hidden_witness :
    (∀ p ∈ [PointerEvent.press ⟨2, 2, 10⟩, PointerEvent.move ⟨0, 3, 20⟩],
      p.isLeftPress = false) ∧
    indicatorLines (paintEvent 200 40 ADM_clickableLabel.new).2 = [] ∧
    reports (mouseMoveEvent 200 ⟨0, 1, 50⟩
      (deliver 200 [PointerEvent.press ⟨2, 2, 10⟩, PointerEvent.move ⟨0, 3, 20⟩]
        ADM_clickableLabel.new).1).2 = [] := by
  have h := fresh_widget_idle_and_hidden 200 40 ⟨0, 1, 50⟩
    [PointerEvent.press ⟨2, 2, 10⟩, PointerEvent.move ⟨0, 3, 20⟩]
  have hpre : ∀ p ∈ [PointerEvent.press ⟨2, 2, 10⟩, PointerEvent.move ⟨0, 3, 20⟩],
      p.isLeftPress = false := by decide
  exact ⟨hpre, h.2.2.2.1, h.2.2.2.2.2 hpre⟩

/-- C14. Zero-width surface: when the width is 0, `emitPosition` emits
`clicked 0 0` for every pointer offset, negative, zero or positive; a
left-button press and a move during a drag with the left button held report
exactly `(0, 0)`, and every report of a press or a move is `(0, 0)`. The
position is a function of the inputs and is obtained by comparisons and
assignments alone. -/
theorem zero_width_reports_origin (e : QMouseEvent) (s : ADM_clickableLabel) :
    emitPosition 0 e = [Effect.clicked 0 0] ∧
    (e.button = Qt.LeftButton → reports (mousePressEvent 0 e s).2 = [(0, 0)]) ∧
    (s.m_dragging = true → e.buttons &&& Qt.LeftButton ≠ 0 →
      reports (mouseMoveEvent 0 e s).2 = [(0, 0)]) ∧
    (∀ r ∈ reports (mousePressEvent 0 e s).2, r = (0, 0)) ∧
    (∀ r ∈ reports (mouseMoveEvent 0 e s).2, r = (0, 0)) := by
  have hemit : emitPosition 0 e = [Effect.clicked 0 0] := by
    rw [emitPosition_eq_clamp 0 le_rfl e]
    have : max 0 (min e.x 0) = 0 := by omega
    rw [this]
  have hpress : e.button = Qt.LeftButton → reports (mousePressEvent 0 e s).2 = [(0, 0)] := by
    intro hb
    simp [mousePressEvent, hb, hemit, reports]
  have hmove : s.m_dragging = true → e.buttons &&& Qt.LeftButton ≠ 0 →
      reports (mouseMoveEvent 0 e s).2 = [(0, 0)] := by
    intro hd hb
    simp [mouseMoveEvent, hd, hb, hemit, reports]
  refine ⟨hemit, hpress, hmove, ?_, ?_⟩
  · intro r hr
    by_cases hb : e.button = Qt.LeftButton
    · rw [hpress hb] at hr
      simpa using hr
    · simp [mousePressEvent, hb, reports] at hr
  · intro r hr
    by_cases hg : (s.m_dragging && (e.buttons &&& Qt.LeftButton != 0)) = true
    · have hg2 := hg
      simp only [Bool.and_eq_true, bne_iff_ne] at hg2
      rw [hmove hg2.1 hg2.2] at hr
      simpa using hr
    · simp [mouseMoveEvent, hg, reports] at hr

/-- Witness for C14: on a widget of width 0, a left press at `x = -7` and a
move to `x = 35` during a drag with the left button held both report
`(0, 0)`. -/
theorem zero_width_reports_origin_witness :
    (1 : Nat) = Qt.LeftButton ∧ (1 : Nat) &&& Qt.LeftButton ≠ 0 ∧
    reports (mousePressEvent 0 ⟨1, 1, -7⟩ ADM_clickableLabel.new).2 = [(0, 0)] ∧
    reports (mouseMoveEvent 0 ⟨0, 1, 35⟩ ⟨ADM_double.finite (-1), true⟩).2 = [(0, 0)] :=
  ⟨rfl, by decide,
    (zero_width_reports_origin ⟨1, 1, -7⟩ ADM_clickableLabel.new).2.1 rfl,
    (zero_width_reports_origin ⟨0, 1, 35⟩ ⟨ADM_double.finite (-1), true⟩).2.2.1 rfl
      (by decide)⟩

/-- C15. Non-finite ratios are hidden: with NaN, positive infinity or negative
infinity stored, for every width, height and drag flag, `paintEvent` only calls
the base painting, so no indicator is drawn and neither the product nor the
conversion to `int` is evaluated; and for no stored value at all does a paint
convert a value that `int` cannot hold for being not finite. -/
theorem nonfinite_ratio_hidden (w h : Int) (d : Bool) :
    paintEvent w h ⟨ADM_double.nan, d⟩ = (⟨ADM_double.nan, d⟩, [Effect.basePaintEvent]) ∧
    paintEvent w h ⟨ADM_double.posInf, d⟩ =
      (⟨ADM_double.posInf, d⟩, [Effect.basePaintEvent]) ∧
    paintEvent w h ⟨ADM_double.negInf, d⟩ =
      (⟨ADM_double.negInf, d⟩, [Effect.basePaintEvent]) ∧
    indicatorLines (paintEvent w h ⟨ADM_double.nan, d⟩).2 = [] ∧
    indicatorLines (paintEvent w h ⟨ADM_double.posInf, d⟩).2 = [] ∧
    indicatorLines (paintEvent w h ⟨ADM_double.negInf, d⟩).2 = [] ∧
    (∀ r : ADM_double, Effect.undefinedConversion ∉ (paintEvent w h ⟨r, d⟩).2) := by
  have hnan : paintEvent w h ⟨ADM_double.nan, d⟩ =
      (⟨ADM_double.nan, d⟩, [Effect.basePaintEvent]) := by
    simp [paintEvent, ADM_double.ge, ADM_double.le]
  have hpos : paintEvent w h ⟨ADM_double.posInf, d⟩ =
      (⟨ADM_double.posInf, d⟩, [Effect.basePaintEvent]) := by
    simp [paintEvent, ADM_double.ge, ADM_double.le]
  have hneg : paintEvent w h ⟨ADM_double.negInf, d⟩ =
      (⟨ADM_double.negInf, d⟩, [Effect.basePaintEvent]) := by
    simp [paintEvent, ADM_double.ge, ADM_double.le]
  refine ⟨hnan, hpos, hneg, ?_, ?_, ?_, ?_⟩
  · rw [hnan]; rfl
  · rw [hpos]; rfl
  · rw [hneg]; rfl
  · intro r
    cases r with
    | finite q =>
      unfold paintEvent
      split_ifs <;> simp [ADM_double.mulInt, ADM_double.toInt]
    | posInf => rw [hpos]; simp
    | negInf => rw [hneg]; simp
    | nan => rw [hnan]; simp

/-- C16. The indicator stays on the surface: for ratios `0 ≤ r1 ≤ r2 ≤ 1` and
an `int` width `w ≥ 0`, the paints draw their lines at `x1` and `x2`, the
truncations of the double products of the ratios and the width, with
`0 ≤ x1 ≤ x2 ≤ w`; and for `w > 0` and a ratio that is a double the line is at
`w` exactly when the ratio is 1. -/
theorem indicator_stays_on_surface (r1 r2 : ℚ) (w h : Int) (d1 d2 : Bool)
    (h0 : 0 ≤ r1) (h12 : r1 ≤ r2) (h1 : r2 ≤ 1) (hw : 0 ≤ w) (hmax : w ≤ INT_MAX) :
    ∃ x1 x2 : Int,
      ADM_double.toInt (ADM_double.mulInt (ADM_double.finite r1) w) = some x1 ∧
      ADM_double.toInt (ADM_double.mulInt (ADM_double.finite r2) w) = some x2 ∧
      indicatorLines (paintEvent w h ⟨ADM_double.finite r1, d1⟩).2 = [(x1, 0, x1, h)] ∧
      indicatorLines (paintEvent w h ⟨ADM_double.finite r2, d2⟩).2 = [(x2, 0, x2, h)] ∧
      0 ≤ x1 ∧ x1 ≤ x2 ∧ x2 ≤ w ∧
      (0 < w → ADM_double.IsDouble r1 → (x1 = w ↔ r1 = 1)) ∧
      (0 < w → ADM_double.IsDouble r2 → (x2 = w ↔ r2 = 1)) := by
  have hwq : (0 : ℚ) ≤ (w : ℚ) := by exact_mod_cast hw
  have hr1 : 0 ≤ r1 ∧ r1 ≤ 1 := ⟨h0, h12.trans h1⟩
  have hr2 : 0 ≤ r2 ∧ r2 ≤ 1 := ⟨h0.trans h12, h1⟩
  have hq1 : 0 ≤ r1 * (w : ℚ) := mul_nonneg hr1.1 hwq
  have hb1 := roundNearest_mul_bounds r1 w hr1.1 hr1.2 hw hmax
  have hb2 := roundNearest_mul_bounds r2 w hr2.1 hr2.2 hw hmax
  refine ⟨⌊ADM_double.roundNearest (r1 * (w : ℚ))⌋, ⌊ADM_double.roundNearest (r2 * (w : ℚ))⌋,
    toInt_finite_of_nonneg _ hb1.1, toInt_finite_of_nonneg _ hb2.1, ?_, ?_,
    Int.floor_nonneg.mpr hb1.1,
    Int.floor_mono (roundNearest_mono hq1 (mul_le_mul_of_nonneg_right h12 hwq)), ?_,
    fun hpos hd => floor_roundNearest_mul_eq_iff r1 w hr1.1 hr1.2 hd hpos hmax,
    fun hpos hd => floor_roundNearest_mul_eq_iff r2 w hr2.1 hr2.2 hd hpos hmax⟩
  · rw [paintEvent_finite r1 w hw h d1, if_pos hr1]; rfl
  · rw [paintEvent_finite r2 w hw h d2, if_pos hr2]; rfl
  · have := Int.floor_mono hb2.2
    rwa [Int.floor_intCast] at this

/-- Witness for C16 on a surface 300 pixels wide and 40 high: the ratios one
half and one, both doubles, draw their lines at 150 and 300. -/
theorem indicator_stays_on_surface_witness :
    (0 : ℚ) ≤ 1 / 2 ∧ (1 / 2 : ℚ) ≤ 1 ∧ (1 : ℚ) ≤ 1 ∧ (0 : Int) ≤ 300 ∧
    (300 : Int) ≤ INT_MAX ∧ ADM_double.IsDouble 1 ∧
    indicatorLines (paintEvent 300 40 ⟨ADM_double.finite (1 / 2), false⟩).2 =
      [(150, 0, 150, 40)] ∧
    indicatorLines (paintEvent 300 40 ⟨ADM_double.finite 1, false⟩).2 =
      [(300, 0, 300, 40)] := by
  have hone : ADM_double.IsDouble 1 := by
    unfold ADM_double.IsDouble
    have := roundNearest_intCast 1 (by decide) (by norm_num)
    simpa using this
  obtain ⟨x1, x2, -, -, hl1, hl2, -, -, -, -, hx2⟩ :=
    indicator_stays_on_surface (1 / 2) 1 300 40 false false (by norm_num) (by norm_num)
      le_rfl (by decide) (by decide)
  have hx2w : x2 = 300 := (hx2 (by decide) hone).mpr rfl
  have hprod : (1 / 2 : ℚ) * ((300 : Int) : ℚ) = ((150 : Int) : ℚ) := by norm_num
  have hfl : ⌊ADM_double.roundNearest ((1 / 2 : ℚ) * ((300 : Int) : ℚ))⌋ = 150 := by
    rw [hprod, roundNearest_intCast 150 (by decide) (by norm_num), Int.floor_intCast]
  have hl1b := hl1
  rw [paintEvent_finite (1 / 2) 300 (by decide) 40 false, if_pos (by norm_num), hfl] at hl1b
  have hx1 : x1 = 150 := by
    simp only [indicatorLines, List.cons.injEq, Prod.mk.injEq, and_true] at hl1b
    exact hl1b.1.symm
  rw [hx1] at hl1
  rw [hx2w] at hl2
  exact ⟨by norm_num, by norm_num, le_rfl, by decide, by decide, hone, hl1, hl2⟩

/-- Counterexample to C17 as stated: for the fractional position
`p = 2147483648` and the width 200 we have `w ≤ p`, and clamping first and
truncating second gives 200, but the truncation of `p` is not an `int`, so the
conversion in `emitPosition` is undefined and the position 200 is not
reported. -/
theorem truncation_out_of_int_range_counterexample :
    ((200 : Int) : ℚ) ≤ 2147483648 ∧
    clampThenTruncate 2147483648 200 = 200 ∧
    emitPositionQt6 200 1 1 (ADM_double.finite 2147483648) =
      [Effect.undefinedConversion] ∧
    reports (emitPositionQt6 200 1 1 (ADM_double.finite 2147483648)) ≠ [(200, 200)] := by
  have hemit : emitPositionQt6 200 1 1 (ADM_double.finite 2147483648) =
      [Effect.undefinedConversion] := by
    simp [emitPositionQt6, ADM_double.toRepresentableInt, ADM_double.toInt, INT_MAX]
  refine ⟨by norm_num, ?_, hemit, ?_⟩
  · have h := clamp_truncToZero_eq 2147483648 200 (by decide)
    rw [← h]
    have ht : truncToZero 2147483648 = 2147483648 := by simp [truncToZero]
    rw [ht]
    decide
  · rw [hemit]
    decide

/-- C17, amended. For every fractional position `p` whose truncation toward
zero is representable in `int` and every width `w ≥ 0`, `emitPosition` reading
`p` reports the position obtained by truncating and then clamping, which is the
same integer as clamping `p` into `[0, w]` and then truncating; every `p` with
`-1 < p < 0` is reported as 0 and every such `p` with `w ≤ p` is reported as
`w`. -/
theorem truncation_commutes_with_clamping (p : ℚ) (w : Int) (button buttons : Nat)
    (hw : 0 ≤ w) (hlo : INT_MIN ≤ truncToZero p) (hhi : truncToZero p ≤ INT_MAX) :
    emitPositionQt6 w button buttons (ADM_double.finite p) =
      emitPosition w ⟨button, buttons, truncToZero p⟩ ∧
    emitPositionQt6 w button buttons (ADM_double.finite p) =
      [Effect.clicked (clampThenTruncate p w) w] ∧
    reports (emitPositionQt6 w button buttons (ADM_double.finite p)) =
      [(clampThenTruncate p w, w)] ∧
    (-1 < p → p < 0 →
      reports (emitPositionQt6 w button buttons (ADM_double.finite p)) = [(0, w)]) ∧
    ((w : ℚ) ≤ p →
      reports (emitPositionQt6 w button buttons (ADM_double.finite p)) = [(w, w)]) := by
  have hwq : (0 : ℚ) ≤ (w : ℚ) := by exact_mod_cast hw
  have h1 : emitPositionQt6 w button buttons (ADM_double.finite p) =
      emitPosition w ⟨button, buttons, truncToZero p⟩ := by
    simp only [emitPositionQt6, toRepresentableInt_finite p hlo hhi]
  have h2 : emitPositionQt6 w button buttons (ADM_double.finite p) =
      [Effect.clicked (clampThenTruncate p w) w] := by
    rw [h1, emitPosition_eq_clamp w hw, clamp_truncToZero_eq p w hw]
  refine ⟨h1, h2, ?_, ?_, ?_⟩
  · rw [h2]; rfl
  · intro _ hneg
    have hc : clampThenTruncate p w = 0 := by
      unfold clampThenTruncate
      rw [min_eq_left (hneg.le.trans hwq), max_eq_left hneg.le]
      simp [truncToZero]
    rw [h2, hc]; rfl
  · intro hge
    have hc : clampThenTruncate p w = w := by
      unfold clampThenTruncate
      rw [min_eq_right hge, max_eq_right hwq, truncToZero_intCast]
    rw [h2, hc]; rfl

/-- Witness for C17, amended, on a widget 200 pixels wide: the position 250.5
truncates to 250 and is reported as 200; the position -0.5 truncates to 0 and
is reported as 0. -/
theorem truncation_commutes_with_clamping_witness :
    (0 : Int) ≤ 200 ∧ truncToZero (501 / 2) = 250 ∧ truncToZero (-(1 / 2)) = 0 ∧
    reports (emitPositionQt6 200 1 1 (ADM_double.finite (501 / 2))) = [(200, 200)] ∧
    reports (emitPositionQt6 200 1 1 (ADM_double.finite (-(1 / 2)))) = [(0, 200)] := by
  have ht1 : truncToZero (501 / 2) = 250 := by
    rw [truncToZero_of_nonneg _ (by norm_num), Int.floor_eq_iff]; norm_num
  have ht2 : truncToZero (-(1 / 2)) = 0 := by
    rw [truncToZero_neg, truncToZero_of_nonneg _ (by norm_num), neg_eq_zero,
      Int.floor_eq_iff]
    norm_num
  have h1 := truncation_commutes_with_clamping (501 / 2) 200 1 1 (by decide)
    (by rw [ht1]; decide) (by rw [ht1]; decide)
  have h2 := truncation_commutes_with_clamping (-(1 / 2)) 200 1 1 (by decide)
    (by rw [ht2]; decide) (by rw [ht2]; decide)
  exact ⟨by decide, ht1, ht2, h1.2.2.2.2 (by norm_num), h2.2.2.2.1 (by norm_num) (by norm_num)⟩
